import Mathlib

/-!
Shallow embedding of the ArchBuddy workflow-orchestration core:
`core/types.py` (reducers and shared state), `nodes/iteration.py`
(iteration controller), `nodes/supervisor.py` (decomposition node),
and `core/execution.py` (tool-augmented execution loop).
Python dictionaries are modelled as insertion-ordered association lists,
machine integers as `Nat` (all quantities involved are nonnegative
counters), and fallible calls as `Except`.
-/

namespace ArchBuddy

/-! ## Python values

Values stored in the nested-dictionary state fields
(`architecture_domain_tasks`, `architecture_components`, ...).
A Python `dict` is an insertion-ordered association list. -/

inductive Val where
  | vint  (n : Int)
  | vstr  (s : String)
  | vbool (b : Bool)
  | vlist (l : List Val)
  | vdict (d : List (String × Val))

abbrev PyDict := List (String × Val)

/-- Dictionary lookup, `d[k]` / `d.get(k)`: first (unique) binding of `k`. -/
def dictGet {α : Type} : List (String × α) → String → Option α
  | [], _ => none
  | (k', v) :: rest, k => if k' = k then some v else dictGet rest k

/-- Dictionary assignment `d[k] = v`: replace the binding in place
(Python dicts keep the original insertion position on overwrite),
or append a new binding at the end. -/
def setKey {α : Type} : List (String × α) → String → α → List (String × α)
  | [], k, v => [(k, v)]
  | (k', v') :: rest, k, v =>
      if k' = k then (k', v) :: rest else (k', v') :: setKey rest k v

/-! ## core/types.py : reducers -/

mutual

/-- Value stored for one key of `merge_dicts`: when the existing value
and the incoming value are both dicts (`key in result and
isinstance(result[key], dict) and isinstance(value, dict)`, core/types.py
line 42) they are merged recursively, otherwise the incoming value
overwrites (line 45). -/
def mergeVal (old : Option Val) (value : Val) : Val :=
  match old, value with
  | some (.vdict d1), .vdict d2 => .vdict (merge_dicts d1 d2)
  | _, _ => value
termination_by sizeOf value
decreasing_by
  simp only [Val.vdict.sizeOf_spec]
  omega

/-- Embeds `merge_dicts` (core/types.py, lines 28-46): start from a copy
of `left` and assign, for each entry of `right` in order, the (possibly
recursively merged) value. -/
def merge_dicts (left : PyDict) (right : PyDict) : PyDict :=
  match right with
  | [] => left
  | (key, value) :: rest =>
      merge_dicts (setKey left key (mergeVal (dictGet left key) value)) rest
termination_by sizeOf right
decreasing_by
  · simp only [Prod.mk.sizeOf_spec, List.cons.sizeOf_spec]
    omega
  · simp only [List.cons.sizeOf_spec]
    omega

end

/-- Embeds `last_value` (core/types.py, lines 49-56). -/
def last_value {α : Type} (_left right : α) : α := right

/-- Embeds the `lambda a, b: b` reducer attached to `factual_errors_exist`
(core/types.py, lines 198-202): plain overwrite. -/
def factual_errors_reducer (_a b : Bool) : Bool := b

/-- Embeds the `lambda a, b: a or b` reducer attached to `design_flaws_exist`
(core/types.py, lines 204-207): sticky logical OR. -/
def design_flaws_reducer (a b : Bool) : Bool := a || b

/-! ## core/types.py : validation feedback and its reducer

Every item the validator nodes put on `validation_feedback` is a dict
with string fields `domain` and `validation_result` (plus a component
list and an error flag); we model an item at that record type, at which
the `isinstance(item, dict)` guard of the reducer is always true and the
`.get` defaults never fire. `hashlib.md5(...).hexdigest()[:8]` is an
external library call; it is a parameter `md5hex8` of every definition
that fingerprints items. -/

structure FeedbackItem where
  domain : String
  validation_result : String
  components_validated : List String
  has_errors : Bool
deriving DecidableEq, Repr

/-- Fingerprint `key = f"\x7bdomain\x7d_\x7bresult_hash\x7d"` of one item
(core/types.py, lines 88-92). -/
def itemKey (md5hex8 : String → String) (item : FeedbackItem) : String :=
  item.domain ++ "_" ++ md5hex8 item.validation_result

/-- Folds items into the ordered dict `feedback_dict` keyed by fingerprint;
the source runs one such loop over `left` and then one over `right` into
the same dict, which is the same as one loop over `left ++ right`. -/
def buildFeedbackDict (md5hex8 : String → String) :
    List FeedbackItem → List (String × FeedbackItem) → List (String × FeedbackItem)
  | [], acc => acc
  | item :: rest, acc =>
      buildFeedbackDict md5hex8 rest (setKey acc (itemKey md5hex8 item) item)

/-- Embeds `validation_feedback_reducer` (core/types.py, lines 59-103):
an explicitly empty `right` against a non-empty `left` is a reset; an
empty side otherwise returns the other; two non-empty lists are merged
through `feedback_dict`, later insertions overwriting equal fingerprints,
and the dict values are returned in insertion order. -/
def validation_feedback_reducer (md5hex8 : String → String)
    (left right : List FeedbackItem) : List FeedbackItem :=
  if right = [] ∧ left ≠ [] then []
  else if right = [] then left
  else if left = [] then right
  else (buildFeedbackDict md5hex8 (left ++ right) []).map Prod.snd

/-! ## core/types.py : ArchitectureState

The shared LangGraph state.  A field holds `none` when its key has never
been written (the runtime passes nodes a dict without that key, which is
why the readers below use `.get` defaults).  `has_validation_errors` is
written by `validation_synthesizer` and read by `iteration_condition`
but is *not* one of the `ArchitectureState` TypedDict channels declared
in core/types.py; we model it generously as a plain dict entry that a
write simply overwrites. -/

structure ArchState where
  iteration_count : Option Nat
  min_iterations : Option Nat
  max_iterations : Option Nat
  architecture_domain_tasks : Option PyDict
  architecture_components : Option PyDict
  validation_feedback : Option (List FeedbackItem)
  factual_errors_exist : Option Bool
  design_flaws_exist : Option Bool
  has_validation_errors : Option Bool

/-- Partial update returned by a node: `none` marks a key absent from the
returned dict. -/
structure StateUpdate where
  iteration_count : Option Nat
  architecture_domain_tasks : Option PyDict
  architecture_components : Option PyDict
  validation_feedback : Option (List FeedbackItem)
  factual_errors_exist : Option Bool
  design_flaws_exist : Option Bool
  has_validation_errors : Option Bool

/-- Update with no keys. -/
def emptyUpdate : StateUpdate :=
  { iteration_count := none, architecture_domain_tasks := none,
    architecture_components := none, validation_feedback := none,
    factual_errors_exist := none, design_flaws_exist := none,
    has_validation_errors := none }

/-- Applies one partial update to the state through each field's reducer,
as the LangGraph runtime does: for every key present in the update,
`new = reducer(old, incoming)`, where an unwritten channel contributes
its type's default (`0`, `[]`, `\x7b\x7d`, `False`). -/
def applyUpdate (md5hex8 : String → String) (s : ArchState) (u : StateUpdate) : ArchState :=
  { iteration_count :=
      match u.iteration_count with
      | none => s.iteration_count
      | some v => some (last_value (s.iteration_count.getD 0) v),
    min_iterations := s.min_iterations,
    max_iterations := s.max_iterations,
    architecture_domain_tasks :=
      match u.architecture_domain_tasks with
      | none => s.architecture_domain_tasks
      | some v => some (merge_dicts (s.architecture_domain_tasks.getD []) v),
    architecture_components :=
      match u.architecture_components with
      | none => s.architecture_components
      | some v => some (merge_dicts (s.architecture_components.getD []) v),
    validation_feedback :=
      match u.validation_feedback with
      | none => s.validation_feedback
      | some v => some (validation_feedback_reducer md5hex8 (s.validation_feedback.getD []) v),
    factual_errors_exist :=
      match u.factual_errors_exist with
      | none => s.factual_errors_exist
      | some v => some (factual_errors_reducer (s.factual_errors_exist.getD false) v),
    design_flaws_exist :=
      match u.design_flaws_exist with
      | none => s.design_flaws_exist
      | some v => some (design_flaws_reducer (s.design_flaws_exist.getD false) v),
    has_validation_errors :=
      match u.has_validation_errors with
      | none => s.has_validation_errors
      | some v => some v }

/-! ## nodes/iteration.py : the iteration controller -/

/-- Embeds `iteration_condition` (nodes/iteration.py, lines 15-50).
Note the error flag it reads: `state.get("has_validation_errors", False)`. -/
def iteration_condition (state : ArchState) : String :=
  let iteration := state.iteration_count.getD 0
  let min_iters := state.min_iterations.getD 1
  let max_iters := state.max_iterations.getD 3
  let has_errors := state.has_validation_errors.getD false
  if iteration < min_iters then "iterate"
  else if has_errors = true ∧ iteration < max_iters then "iterate"
  else if iteration ≥ max_iters then "finish"
  else "finish"

/-! ## core/schemas.py : structured-output models -/

/-- Embeds `DomainTask` (core/schemas.py). -/
structure DomainTask where
  domain : String
  task_description : String
  requirements : List String
  deliverables : List String
deriving DecidableEq, Repr

/-- Embeds `TaskDecomposition` (core/schemas.py). -/
structure TaskDecomposition where
  user_problem : String
  decomposed_tasks : List DomainTask
  overall_architecture_goals : List String
  constraints : List String
deriving DecidableEq, Repr

/-! ## nodes/supervisor.py : the decomposition node

The structured oracle `llm_manager.get_reasoning_structured(...)` is an
external collaborator; it is a parameter indexed by the invocation
number.  `Except.error e` models `structured_llm.invoke` raising with
message `e`; `Except.ok none` models it returning `None` (a falsy
response the retry loop keeps looping on). -/

abbrev StructuredLLM := Nat → Except String (Option TaskDecomposition)

/-- Embeds the retry loop of `architect_supervisor` (nodes/supervisor.py,
lines 82-96): at most `max_retries` attempts; break on a truthy response
with non-empty `decomposed_tasks`, otherwise carry the last response;
`Except.error` is an escaping exception.  On a failed attempt with
`attempt < max_retries - 1` the source calls `time.sleep(2 ** attempt)`,
but supervisor.py never imports `time`, so that branch raises `NameError`
instead of sleeping; either way the exception escapes the loop. -/
def supervisorAttempts (llm : StructuredLLM) (max_retries : Nat)
    (attempt : Nat) (acc : Option TaskDecomposition) :
    Except String (Option TaskDecomposition) :=
  if _h : attempt < max_retries then
    match llm attempt with
    | .ok response =>
        match response with
        | some td =>
            if td.decomposed_tasks ≠ [] then .ok (some td)
            else supervisorAttempts llm max_retries (attempt + 1) (some td)
        | none => supervisorAttempts llm max_retries (attempt + 1) none
    | .error e =>
        if attempt < max_retries - 1 then .error "NameError" else .error e
  else .ok acc
termination_by max_retries - attempt

/-- Builds `domain_tasks_update` (nodes/supervisor.py, lines 101-113):
a dict seeded with the goals and constraints, then one entry per
decomposed task keyed by the lower-cased domain. -/
def buildDomainTasks (td : TaskDecomposition) : PyDict :=
  td.decomposed_tasks.foldl
    (fun d task =>
      setKey d task.domain.toLower (.vdict
        [("task_description", .vstr task.task_description),
         ("requirements", .vlist (task.requirements.map .vstr)),
         ("deliverables", .vlist (task.deliverables.map .vstr))]))
    [("overall_goals", .vlist (td.overall_architecture_goals.map .vstr)),
     ("constraints", .vlist (td.constraints.map .vstr))]

/-- Embeds `architect_supervisor` (nodes/supervisor.py, lines 15-130).
Reading `state["iteration_count"]` happens before the `try`, so a state
without that key is an uncaught handler fault, modelled as `none`.
A decomposition that stays `None` after the loop raises `ValueError`
(line 99), and every exception lands in the outer handler (lines
125-130), which returns the error-flagged update. -/
def architect_supervisor (llm : StructuredLLM) (state : ArchState)
    (max_retries : Nat) : Option StateUpdate :=
  match state.iteration_count with
  | none => none
  | some prev =>
      let iteration := prev + 1
      match supervisorAttempts llm max_retries 0 none with
      | .ok (some td) =>
          some { emptyUpdate with
            architecture_domain_tasks := some (buildDomainTasks td),
            iteration_count := some iteration,
            validation_feedback := some [],
            architecture_components := some [],
            factual_errors_exist := some false }
      | .ok none =>
          some { emptyUpdate with
            iteration_count := some iteration,
            factual_errors_exist := some true }
      | .error _ =>
          some { emptyUpdate with
            iteration_count := some iteration,
            factual_errors_exist := some true }

/-! ## core/execution.py : the tool-augmented execution loop

Messages mirror the langchain message classes used by the loop; a tool
call request carries a name, an argument value and a call id.  The
oracle (`llm_with_tools.invoke`) is a parameter indexed by the number of
prior invocations: `Except.error e` models a raised exception,
`Except.ok none` a falsy or content-less response (line 59),
`Except.ok (some (c, tcs))` an `AIMessage` with content `c` and tool
calls `tcs`.  A tool maps its argument dict to `Except`, `error e`
modelling a raised exception and `ok r` the `str` of its result.
Wall-clock time is modelled by the seconds the loop itself sleeps, so
`elapsed` advances exactly by the backoff waits; the loop also reports
how many tool rounds it ran. -/

structure ToolCall where
  name : String
  args : Val
  id : String

inductive Msg where
  | system (content : String)
  | human (content : String)
  | ai (content : String) (tool_calls : List ToolCall)
  | tool (content : String) (tool_call_id : String)

/-- Tests `isinstance(msg, AIMessage)`. -/
def Msg.isAI : Msg → Bool
  | .ai _ _ => true
  | _ => false

abbrev Oracle := Nat → List Msg → Except String (Option (String × List ToolCall))

abbrev ToolTable := List (String × (PyDict → Except String String))

/-- Renders a Python value as `str(...)` does (used only to normalize a
non-dict tool argument into a query dict, line 75; no claim depends on
the exact rendering). -/
def pyStr : Val → String
  | .vint n => toString n
  | .vstr s => s
  | .vbool b => if b then "True" else "False"
  | .vlist _ => "list"
  | .vdict _ => "dict"

/-- Embeds the oracle retry loop (core/execution.py, lines 44-57):
up to `retry_attempts + 1` attempts, sleeping `2 ** attempt` seconds
after a failed attempt that still has retries left; after the last
failure the error is fatal.  Returns the outcome, the seconds slept and
the next invocation index. -/
def retryInvoke (oracle : Oracle) (msgs : List Msg) (retry_attempts : Nat)
    (attempt : Nat) (callIdx : Nat) (slept : Nat) :
    Except String (Option (String × List ToolCall)) × Nat × Nat :=
  match oracle callIdx msgs with
  | .ok r => (.ok r, slept, callIdx + 1)
  | .error e =>
      if _h : attempt < retry_attempts then
        retryInvoke oracle msgs retry_attempts (attempt + 1) (callIdx + 1)
          (slept + 2 ^ attempt)
      else (.error e, slept, callIdx + 1)
termination_by retry_attempts - attempt

/-- Embeds the body of the per-round tool loop (core/execution.py, lines
68-94) for one requested call: a known tool is invoked on its (dict-
normalized) arguments, a raised exception becomes a textual error
result, an unknown name becomes a synthetic result; each case yields the
`ToolMessage` appended to the conversation. -/
def execOneCall (tools : ToolTable) (tc : ToolCall) : Msg :=
  match dictGet tools tc.name with
  | some tool =>
      let tool_args : PyDict :=
        match tc.args with
        | .vdict d => d
        | a => [("query", .vstr (pyStr a))]
      match tool tool_args with
      | .ok tool_result => .tool tool_result tc.id
      | .error e => .tool ("Error: " ++ e) tc.id
  | none => .tool ("Unknown tool: " ++ tc.name) tc.id

/-- Requested tool calls are executed in request order, each appending
its result message (core/execution.py, lines 68-94). -/
def execToolCalls (tools : ToolTable) (tcs : List ToolCall) : List Msg :=
  tcs.map (execOneCall tools)

/-- Tests `if timeout and (time.time() - start_time) > timeout` (line
40): a `None` or zero timeout is falsy and never triggers. -/
def timeoutExpired (timeout : Option Nat) (elapsed : Nat) : Bool :=
  match timeout with
  | none => false
  | some t => decide (t ≠ 0 ∧ elapsed > t)

/-- Fallback result when the loop ends without a terminal response
(core/execution.py, lines 101-107): the most recent `AIMessage` in the
history, or the fixed sentinel. -/
def fallbackResponse (msgs : List Msg) : Msg :=
  (msgs.reverse.find? Msg.isAI).getD (.ai "Tool execution incomplete" [])

/-- Embeds the `while tool_iterations < max_iterations` loop of
`execute_tool_calls` (core/execution.py, lines 38-109), recursing on the
remaining iteration budget.  Returns the final message, the total
seconds slept and the number of completed tool rounds. -/
def execLoop (oracle : Oracle) (tools : ToolTable) (retry_attempts : Nat)
    (timeout : Option Nat) : Nat → List Msg → Nat → Nat → Nat → Msg × Nat × Nat
  | 0, msgs, _, elapsed, rounds => (fallbackResponse msgs, elapsed, rounds)
  | remaining + 1, msgs, callIdx, elapsed, rounds =>
      if timeoutExpired timeout elapsed then (fallbackResponse msgs, elapsed, rounds)
      else
        match retryInvoke oracle msgs retry_attempts 0 callIdx 0 with
        | (.error e, slept, _) => (.ai ("Error: " ++ e) [], elapsed + slept, rounds)
        | (.ok none, slept, _) => (fallbackResponse msgs, elapsed + slept, rounds)
        | (.ok (some (content, tool_calls)), slept, callIdx') =>
            if tool_calls.isEmpty then (.ai content tool_calls, elapsed + slept, rounds)
            else
              execLoop oracle tools retry_attempts timeout remaining
                (msgs ++ Msg.ai content tool_calls :: execToolCalls tools tool_calls)
                callIdx' (elapsed + slept) (rounds + 1)

/-- Embeds `execute_tool_calls` (core/execution.py, lines 15-109);
the Python defaults are `max_iterations = 3`, `timeout = 60.0`,
`retry_attempts = 2`. -/
def execute_tool_calls (msgs : List Msg) (oracle : Oracle) (tools : ToolTable)
    (max_iterations : Nat) (timeout : Option Nat) (retry_attempts : Nat) :
    Msg × Nat × Nat :=
  execLoop oracle tools retry_attempts timeout max_iterations msgs 0 0 0

/-! ## nodes/validators.py : the update a domain validator contributes -/

/-- Partial update returned by `generic_domain_validator` on its normal
path (nodes/validators.py, lines 244-252): one feedback item plus the
shared `factual_errors_exist` flag carrying the same `has_errors` bit. -/
def validatorUpdate (item : FeedbackItem) : StateUpdate :=
  { emptyUpdate with
      validation_feedback := some [item],
      factual_errors_exist := some item.has_errors }

/-! ## Concrete inputs used to exercise the definitions -/

/-- State carrying exactly the four quantities the iteration controller
reads. -/
def mkCtrlState (it mi ma : Nat) (err : Bool) : ArchState :=
  { iteration_count := some it, min_iterations := some mi,
    max_iterations := some ma, architecture_domain_tasks := none,
    architecture_components := none, validation_feedback := none,
    factual_errors_exist := none, design_flaws_exist := none,
    has_validation_errors := some err }

/-- Structured oracle that returns `None` on every attempt, so the
supervisor retry loop exhausts its bound and raises `ValueError`. -/
def failLLM : StructuredLLM := fun _ => .ok none

/-- One well-formed decomposition. -/
def td0 : TaskDecomposition :=
  { user_problem := "p",
    decomposed_tasks :=
      [{ domain := "Compute", task_description := "t",
         requirements := ["r1"], deliverables := ["d1"] }],
    overall_architecture_goals := ["g"], constraints := ["c"] }

/-- Structured oracle that succeeds immediately with `td0`. -/
def okLLM : StructuredLLM := fun _ => .ok (some td0)

/-- Feedback item builder. -/
def fbItem (d r : String) (he : Bool) : FeedbackItem :=
  { domain := d, validation_result := r, components_validated := [],
    has_errors := he }

/-- Stand-in for the truncated md5 hex digest in concrete evaluations. -/
def hash0 : String → String := fun _ => "h"

/-- State reaching the supervisor on pass 2 of a clean run that has not
met `min_iterations` yet: pass 1 found no errors, so the controller
looped back only because `1 < 2`. -/
def c2State : ArchState :=
  { iteration_count := some 1, min_iterations := some 2,
    max_iterations := some 3, architecture_domain_tasks := some [],
    architecture_components := some [], validation_feedback := some [],
    factual_errors_exist := some false, design_flaws_exist := some false,
    has_validation_errors := some false }

/-- State at the loop-back edge with per-iteration leftovers: one
feedback item, a populated component map and a raised error flag. -/
def c3State : ArchState :=
  { iteration_count := some 1, min_iterations := some 2,
    max_iterations := some 3, architecture_domain_tasks := some [],
    architecture_components :=
      some [("compute", .vdict [("recommendations", .vstr "old")])],
    validation_feedback := some [fbItem "compute" "bad" true],
    factual_errors_exist := some true, design_flaws_exist := some false,
    has_validation_errors := some true }

/-- Oracle whose every invocation raises. -/
def failingOracle : Oracle := fun _ _ => .error "boom"

/-- Oracle that raises on its first two invocations and then returns a
terminal answer. -/
def flakyOracle : Oracle :=
  fun i _ => if i < 2 then .error "boom" else .ok (some ("done", []))

/-- Request for a tool name absent from the tool table. -/
def unknownToolCall : ToolCall :=
  { name := "mystery", args := .vdict [], id := "call1" }

/-- Oracle that requests the unknown tool on every invocation. -/
def loopingOracle : Oracle :=
  fun _ _ => .ok (some ("calling", [unknownToolCall]))

/-- Tool that raises on every invocation. -/
def raisingTool : PyDict → Except String String := fun _ => .error "boom"

/-- Tool table holding only the raising tool. -/
def c9Tools : ToolTable := [("known", raisingTool)]

/-- Request for the raising tool. -/
def knownToolCall : ToolCall :=
  { name := "known", args := .vdict [], id := "call2" }

/-- Oracle that first requests the unknown tool and then the raising
tool, and is terminal from its second invocation on. -/
def c9Oracle : Oracle :=
  fun i _ =>
    if i = 0 then .ok (some ("using tools", [unknownToolCall, knownToolCall]))
    else .ok (some ("final answer", []))

/-- Update the supervisor's failure path returns from `c2State`. -/
def c2Update : StateUpdate :=
  { emptyUpdate with
    iteration_count := some 2,
    factual_errors_exist := some true }

/-- Update the supervisor's success path returns from `c3State`. -/
def c3Update : StateUpdate :=
  { emptyUpdate with
    architecture_domain_tasks := some (buildDomainTasks td0),
    iteration_count := some 2,
    validation_feedback := some [],
    architecture_components := some [],
    factual_errors_exist := some false }

/-! ## Python equality and well-formedness of values

`pyEqVal` models the Python `==` used by the spec equations: numbers,
strings and booleans compare componentwise, lists by length and
pointwise `==`, dicts by equal size together with an equal (recursively
`==`) value at every key of the left dict — insertion order is ignored.
Values of different kinds compare unequal (no mixed-kind comparison
arises between the state fields merged here).  `wfVal` states the
invariant every Python value satisfies by construction: the keys of each
nested dict are distinct. -/

mutual

def pyEqVal (v w : Val) : Bool :=
  match v, w with
  | .vint a, .vint b => a == b
  | .vstr a, .vstr b => a == b
  | .vbool a, .vbool b => a == b
  | .vlist a, .vlist b => pyEqList a b
  | .vdict a, .vdict b => (a.length == b.length) && pyEqEntries a b
  | _, _ => false
termination_by sizeOf v

def pyEqList (l m : List Val) : Bool :=
  match l, m with
  | [], [] => true
  | x :: xs, y :: ys => pyEqVal x y && pyEqList xs ys
  | _, _ => false
termination_by sizeOf l

def pyEqEntries (d1 d2 : List (String × Val)) : Bool :=
  match d1 with
  | [] => true
  | (k, v) :: rest =>
      (match dictGet d2 k with
       | some w => pyEqVal v w
       | none => false) && pyEqEntries rest d2
termination_by sizeOf d1

end

mutual

def wfVal (v : Val) : Bool :=
  match v with
  | .vint _ => true
  | .vstr _ => true
  | .vbool _ => true
  | .vlist l => wfList l
  | .vdict d => decide ((d.map Prod.fst).Nodup) && wfEntries d
termination_by sizeOf v

def wfList (l : List Val) : Bool :=
  match l with
  | [] => true
  | x :: xs => wfVal x && wfList xs
termination_by sizeOf l

def wfEntries (d : List (String × Val)) : Bool :=
  match d with
  | [] => true
  | (_, v) :: rest => wfVal v && wfEntries rest
termination_by sizeOf d

end

/-- Well-formed dict: distinct keys here and in every nested dict. -/
def wfDict (d : PyDict) : Bool :=
  decide ((d.map Prod.fst).Nodup) && wfEntries d

/-- Two updates touch disjoint (sub-)keys: wherever both carry the same
key, both values are again dicts whose keys are in turn sub-disjoint, so
no leaf path is written by both updates. -/
def subDisjoint (a b : PyDict) : Bool :=
  match a with
  | [] => true
  | (k, v) :: rest =>
      (match dictGet b k with
       | none => true
       | some w =>
           match v, w with
           | .vdict da, .vdict db => subDisjoint da db
           | _, _ => false) && subDisjoint rest b
termination_by sizeOf a

/-- Final contents of the (caller-owned, mutated in place) `messages`
list when `execute_tool_calls` returns: each completed round appends the
oracle message followed by its tool-result messages; a timeout, a
retry-exhausted oracle, an empty response or a terminal response stops
the growth. -/
def execLoopMsgs (oracle : Oracle) (tools : ToolTable) (retry_attempts : Nat)
    (timeout : Option Nat) : Nat → List Msg → Nat → Nat → List Msg
  | 0, msgs, _, _ => msgs
  | remaining + 1, msgs, callIdx, elapsed =>
      if timeoutExpired timeout elapsed then msgs
      else
        match retryInvoke oracle msgs retry_attempts 0 callIdx 0 with
        | (.error _, _, _) => msgs
        | (.ok none, _, _) => msgs
        | (.ok (some (content, tool_calls)), slept, callIdx2) =>
            if tool_calls.isEmpty then msgs
            else
              execLoopMsgs oracle tools retry_attempts timeout remaining
                (msgs ++ Msg.ai content tool_calls :: execToolCalls tools tool_calls)
                callIdx2 (elapsed + slept)

/-! ## Association-list dictionary lemmas -/

theorem dictGet_setKey_self {α : Type} (d : List (String × α)) (k : String) (v : α) :
    dictGet (setKey d k v) k = some v := by
  induction d with
  | nil => simp [setKey, dictGet]
  | cons p rest ih =>
    obtain ⟨k2, v2⟩ := p
    by_cases h : k2 = k
    · simp [setKey, dictGet, h]
    · simp [setKey, dictGet, h, ih]

theorem dictGet_setKey_ne {α : Type} (d : List (String × α)) (k k2 : String) (v : α)
    (h : k2 ≠ k) : dictGet (setKey d k2 v) k = dictGet d k := by
  induction d with
  | nil => simp [setKey, dictGet, h]
  | cons p rest ih =>
    obtain ⟨k3, v3⟩ := p
    by_cases h3 : k3 = k2
    · subst h3
      simp [setKey, dictGet, h]
    · simp only [setKey, if_neg h3]
      by_cases h4 : k3 = k
      · simp [dictGet, h4]
      · simp [dictGet, h4, ih]

theorem merge_dicts_nil (left : PyDict) : merge_dicts left [] = left := by
  simp [merge_dicts]

theorem merge_dicts_cons (left : PyDict) (k : String) (v : Val) (rest : PyDict) :
    merge_dicts left ((k, v) :: rest)
      = merge_dicts (setKey left k (mergeVal (dictGet left k) v)) rest := by
  simp [merge_dicts]

/-- Keys absent from the right argument keep their left value. -/
theorem dictGet_merge_right_none (left right : PyDict) (k : String)
    (h : dictGet right k = none) :
    dictGet (merge_dicts left right) k = dictGet left k := by
  induction right generalizing left with
  | nil => simp [merge_dicts]
  | cons p rest ih =>
    obtain ⟨k2, v⟩ := p
    have hne : k2 ≠ k := by
      intro he
      simp [dictGet, he] at h
    have hr : dictGet rest k = none := by
      simpa [dictGet, hne] using h
    rw [merge_dicts_cons, ih _ hr, dictGet_setKey_ne _ _ _ _ hne]

/-! ## C5 : deep merge -/

/-- C5: `merge_dicts` recurses through nested maps and resolves non-map
conflicts right-wins — the two spec examples hold, and every key absent
from the right argument keeps its left value. -/
theorem c5_deep_merge_reducer :
    merge_dicts [("x", .vdict [("p", .vint 1)])] [("x", .vdict [("q", .vint 2)])]
      = [("x", .vdict [("p", .vint 1), ("q", .vint 2)])] ∧
    merge_dicts [("x", .vint 1)] [("x", .vint 2)] = [("x", .vint 2)] ∧
    ∀ (left right : PyDict) (k : String), dictGet right k = none →
      dictGet (merge_dicts left right) k = dictGet left k := by
  refine ⟨?_, ?_, dictGet_merge_right_none⟩
  · simp [merge_dicts, mergeVal, dictGet, setKey]
  · simp [merge_dicts, mergeVal, dictGet, setKey]

/-- C5 witness: the untouched-key clause applied at a concrete pair of
dicts. -/
theorem c5_witness :
    dictGet (merge_dicts [("x", .vint 1)] [("y", .vint 2)]) "x" = some (.vint 1) := by
  have h := c5_deep_merge_reducer.2.2 [("x", .vint 1)] [("y", .vint 2)] "x"
      (by simp [dictGet])
  rw [h]
  simp [dictGet]

/-! ## C7 : oracle retry with exponential backoff -/

/-- Oracle retry loop when every attempt fails: all budgeted attempts
are made, sleeping `2 ^ attempt` after each non-final one, and the last
exception escapes as fatal. -/
theorem retryInvoke_all_fail (oracle : Oracle) (msgs : List Msg) (e : String)
    (hfail : ∀ i, oracle i msgs = .error e) (ra : Nat) :
    ∀ (n attempt callIdx slept : Nat), ra - attempt = n → attempt ≤ ra →
      retryInvoke oracle msgs ra attempt callIdx slept
        = (.error e, slept + (2 ^ ra - 2 ^ attempt), callIdx + (ra - attempt) + 1) := by
  intro n
  induction n with
  | zero =>
    intro attempt callIdx slept hn hle
    have heq : attempt = ra := by omega
    subst heq
    rw [retryInvoke.eq_def, hfail callIdx]
    simp
  | succ m ih =>
    intro attempt callIdx slept hn hle
    have hlt : attempt < ra := by omega
    rw [retryInvoke.eq_def, hfail callIdx]
    simp only [dif_pos hlt]
    rw [ih (attempt + 1) (callIdx + 1) (slept + 2 ^ attempt) (by omega) (by omega)]
    have h2 : 2 ^ (attempt + 1) = 2 * 2 ^ attempt := by
      rw [pow_succ]
      omega
    have h1 : 2 ^ (attempt + 1) ≤ 2 ^ ra :=
      Nat.pow_le_pow_right (by omega) (by omega)
    have h0 : 2 ^ attempt ≤ 2 ^ ra := Nat.pow_le_pow_right (by omega) (by omega)
    refine Prod.ext rfl (Prod.ext ?_ ?_)
    · simp only []
      omega
    · simp only []
      omega

theorem timeoutExpired_zero (timeout : Option Nat) :
    timeoutExpired timeout 0 = false := by
  cases timeout with
  | none => rfl
  | some t => simp [timeoutExpired]

/-- C7: an oracle-call failure is retried up to `retryAttempts` times
with `2 ^ attempt` seconds of backoff; on exhaustion the loop aborts at
once with an error-valued result and zero completed tool rounds, and an
oracle failing twice then succeeding terminally (with
`retryAttempts ≥ 2`) returns the success result after a cumulative
backoff of `2^0 + 2^1` seconds. -/
theorem c7_oracle_retry_backoff :
    (∀ (oracle : Oracle) (tools : ToolTable) (msgs : List Msg)
       (max_it ra : Nat) (timeout : Option Nat) (e : String),
       0 < max_it → (∀ i, oracle i msgs = .error e) →
       execute_tool_calls msgs oracle tools max_it timeout ra
         = (.ai ("Error: " ++ e) [], 2 ^ ra - 1, 0)) ∧
    (∀ (oracle : Oracle) (tools : ToolTable) (msgs : List Msg)
       (max_it ra : Nat) (timeout : Option Nat) (e0 e1 c : String),
       0 < max_it → 2 ≤ ra →
       oracle 0 msgs = .error e0 → oracle 1 msgs = .error e1 →
       oracle 2 msgs = .ok (some (c, [])) →
       execute_tool_calls msgs oracle tools max_it timeout ra
         = (.ai c [], 2 ^ 0 + 2 ^ 1, 0)) := by
  constructor
  · intro oracle tools msgs max_it ra timeout e hpos hfail
    obtain ⟨m, rfl⟩ : ∃ m, max_it = m + 1 := ⟨max_it - 1, by omega⟩
    rw [execute_tool_calls]
    rw [execLoop, timeoutExpired_zero]
    rw [retryInvoke_all_fail oracle msgs e hfail ra ra 0 0 0 (by omega) (by omega)]
    simp
  · intro oracle tools msgs max_it ra timeout e0 e1 c hpos hra h0 h1 h2
    obtain ⟨m, rfl⟩ : ∃ m, max_it = m + 1 := ⟨max_it - 1, by omega⟩
    have hr : retryInvoke oracle msgs ra 0 0 0 = (.ok (some (c, [])), 3, 3) := by
      rw [retryInvoke.eq_def]
      simp only [h0]
      rw [dif_pos (show 0 < ra by omega)]
      norm_num
      rw [retryInvoke.eq_def]
      simp only [h1]
      rw [dif_pos (show 1 < ra by omega)]
      norm_num
      rw [retryInvoke.eq_def]
      simp only [h2]
    rw [execute_tool_calls, execLoop, timeoutExpired_zero]
    simp only [Bool.false_eq_true, if_false, hr]
    norm_num

/-- C7 witness: both clauses at concrete oracles — `failingOracle`
always raises, `flakyOracle` raises twice then answers terminally. -/
theorem c7_witness :
    execute_tool_calls [] failingOracle [] 3 (some 60) 2
      = (.ai "Error: boom" [], 2 ^ 2 - 1, 0) ∧
    execute_tool_calls [] flakyOracle [] 3 (some 60) 2
      = (.ai "done" [], 2 ^ 0 + 2 ^ 1, 0) := by
  constructor
  · exact c7_oracle_retry_backoff.1 failingOracle [] [] 3 2 (some 60) "boom"
      (by omega) (fun i => rfl)
  · exact c7_oracle_retry_backoff.2 flakyOracle [] [] 3 2 (some 60) "boom" "boom"
      "done" (by omega) (by omega) rfl rfl rfl

/-! ## C8 : bounded termination of the tool loop -/

/-- For an oracle that always requests tool calls, every loop exit is by
timeout or iteration exhaustion, the completed rounds stay within the
budget, and the result is the backward-scan fallback over the actual
final message history (`execLoopMsgs`). -/
theorem execLoop_always_tool (oracle : Oracle) (tools : ToolTable) (ra : Nat)
    (timeout : Option Nat)
    (h : ∀ i m, ∃ c tcs, oracle i m = .ok (some (c, tcs)) ∧ tcs ≠ []) :
    ∀ (remaining : Nat) (msgs : List Msg) (callIdx elapsed rounds : Nat),
      (execLoop oracle tools ra timeout remaining msgs callIdx elapsed rounds).2.2
        ≤ rounds + remaining ∧
      (execLoop oracle tools ra timeout remaining msgs callIdx elapsed rounds).1
        = fallbackResponse
            (execLoopMsgs oracle tools ra timeout remaining msgs callIdx elapsed) := by
  intro remaining
  induction remaining with
  | zero =>
    intro msgs callIdx elapsed rounds
    exact ⟨by simp [execLoop], by simp [execLoop, execLoopMsgs]⟩
  | succ n ih =>
    intro msgs callIdx elapsed rounds
    by_cases ht : timeoutExpired timeout elapsed
    · exact ⟨by simp [execLoop, ht], by simp [execLoop, execLoopMsgs, ht]⟩
    · obtain ⟨c, tcs, ho, hne⟩ := h callIdx msgs
      have hri : retryInvoke oracle msgs ra 0 callIdx 0
          = (.ok (some (c, tcs)), 0, callIdx + 1) := by
        rw [retryInvoke.eq_def, ho]
      have hemp : tcs.isEmpty = false := by
        cases tcs with
        | nil => exact absurd rfl hne
        | cons a t => rfl
      have hstep : execLoop oracle tools ra timeout (n + 1) msgs callIdx elapsed rounds
          = execLoop oracle tools ra timeout n
              (msgs ++ Msg.ai c tcs :: execToolCalls tools tcs)
              (callIdx + 1) (elapsed + 0) (rounds + 1) := by
        rw [execLoop]
        simp [ht, hri, hemp]
      have hstepm : execLoopMsgs oracle tools ra timeout (n + 1) msgs callIdx elapsed
          = execLoopMsgs oracle tools ra timeout n
              (msgs ++ Msg.ai c tcs :: execToolCalls tools tcs)
              (callIdx + 1) (elapsed + 0) := by
        rw [execLoopMsgs]
        simp [ht, hri, hemp]
      obtain ⟨hrounds, hres⟩ :=
        ih (msgs ++ Msg.ai c tcs :: execToolCalls tools tcs)
          (callIdx + 1) (elapsed + 0) (rounds + 1)
      exact ⟨by rw [hstep]; omega, by rw [hstep, hstepm]; exact hres⟩

/-- C8: for every oracle that always requests a tool call the loop is a
total function that completes at most `maxIterations` tool rounds, and
its result is exactly `fallbackResponse` of the final message history
the run produced (`execLoopMsgs`): the most recent oracle-authored
message of that history found scanning backward, or the fixed
"execution incomplete" sentinel when it holds none. -/
theorem c8_always_tool_oracle_bounded :
    ∀ (oracle : Oracle) (tools : ToolTable) (msgs : List Msg)
      (max_it ra : Nat) (timeout : Option Nat),
      (∀ i m, ∃ c tcs, oracle i m = .ok (some (c, tcs)) ∧ tcs ≠ []) →
      (execute_tool_calls msgs oracle tools max_it timeout ra).2.2 ≤ max_it ∧
      (execute_tool_calls msgs oracle tools max_it timeout ra).1
        = fallbackResponse (execLoopMsgs oracle tools ra timeout max_it msgs 0 0) := by
  intro oracle tools msgs max_it ra timeout h
  have hmain := execLoop_always_tool oracle tools ra timeout h max_it msgs 0 0 0
  simpa [execute_tool_calls] using hmain

/-- C8 witness: the loop driven by an oracle that forever requests the
unknown tool `"mystery"`, run with an empty tool table; the final
history is evaluated concretely and the returned message is its most
recent oracle message. -/
theorem c8_witness :
    (execute_tool_calls [] loopingOracle [] 2 (some 60) 2).2.2 ≤ 2 ∧
    (execute_tool_calls [] loopingOracle [] 2 (some 60) 2).1
      = fallbackResponse (execLoopMsgs loopingOracle [] 2 (some 60) 2 [] 0 0) ∧
    fallbackResponse (execLoopMsgs loopingOracle [] 2 (some 60) 2 [] 0 0)
      = .ai "calling" [unknownToolCall] := by
  have h := c8_always_tool_oracle_bounded loopingOracle [] [] 2 2 (some 60)
    (fun _ _ => ⟨"calling", [unknownToolCall], rfl, by simp⟩)
  refine ⟨h.1, h.2, ?_⟩
  simp [execLoopMsgs, retryInvoke, loopingOracle, timeoutExpired, execToolCalls,
    execOneCall, unknownToolCall, dictGet, fallbackResponse, Msg.isAI]

/-! ## C9 : per-round tool execution -/

/-- C9: within one round the requested calls are executed in request
order — the unknown tool yields its synthetic result message, the
raising tool a textual error result, in exactly the order requested —
the results are appended to the history handed to the oracle on the next
round, and neither fault aborts the loop, which returns the next
terminal oracle answer. -/
theorem c9_tool_faults_recovered_in_order :
    ∀ (oracle : Oracle) (tools : ToolTable) (msgs : List Msg)
      (max_it ra : Nat) (timeout : Option Nat)
      (tc1 tc2 : ToolCall) (tool : PyDict → Except String String)
      (args2 : PyDict) (c c2 e : String),
      2 ≤ max_it →
      dictGet tools tc1.name = none →
      dictGet tools tc2.name = some tool →
      tc2.args = .vdict args2 →
      tool args2 = .error e →
      oracle 0 msgs = .ok (some (c, [tc1, tc2])) →
      oracle 1 (msgs ++ [Msg.ai c [tc1, tc2],
          Msg.tool ("Unknown tool: " ++ tc1.name) tc1.id,
          Msg.tool ("Error: " ++ e) tc2.id]) = .ok (some (c2, [])) →
      execute_tool_calls msgs oracle tools max_it timeout ra
        = (.ai c2 [], 0, 1) := by
  intro oracle tools msgs max_it ra timeout tc1 tc2 tool args2 c c2 e
    hmax h1 h2 harg h3 ho0 ho1
  obtain ⟨m, rfl⟩ : ∃ m, max_it = m + 2 := ⟨max_it - 2, by omega⟩
  have hcall1 : execOneCall tools tc1 = .tool ("Unknown tool: " ++ tc1.name) tc1.id := by
    simp [execOneCall, h1]
  have hcall2 : execOneCall tools tc2 = .tool ("Error: " ++ e) tc2.id := by
    simp [execOneCall, h2, harg, h3]
  have hri0 : retryInvoke oracle msgs ra 0 0 0
      = (.ok (some (c, [tc1, tc2])), 0, 1) := by
    rw [retryInvoke.eq_def, ho0]
  have hmsgs : msgs ++ Msg.ai c [tc1, tc2] :: execToolCalls tools [tc1, tc2]
      = msgs ++ [Msg.ai c [tc1, tc2],
          Msg.tool ("Unknown tool: " ++ tc1.name) tc1.id,
          Msg.tool ("Error: " ++ e) tc2.id] := by
    simp [execToolCalls, hcall1, hcall2]
  have hri1 : retryInvoke oracle
      (msgs ++ [Msg.ai c [tc1, tc2],
          Msg.tool ("Unknown tool: " ++ tc1.name) tc1.id,
          Msg.tool ("Error: " ++ e) tc2.id]) ra 0 1 0
      = (.ok (some (c2, [])), 0, 2) := by
    rw [retryInvoke.eq_def, ho1]
  rw [execute_tool_calls, execLoop, timeoutExpired_zero]
  simp only [Bool.false_eq_true, if_false, hri0, List.isEmpty_cons, hmsgs]
  rw [execLoop]
  have ht0 : timeoutExpired timeout (0 + 0) = false := timeoutExpired_zero timeout
  simp [ht0, hri1]

/-- C9 witness: a round requesting the unknown tool then the raising
tool, followed by a terminal answer. -/
theorem c9_witness :
    execute_tool_calls [] c9Oracle c9Tools 3 (some 60) 2
      = (.ai "final answer" [], 0, 1) :=
  c9_tool_faults_recovered_in_order c9Oracle c9Tools [] 3 2 (some 60)
    unknownToolCall knownToolCall raisingTool [] "using tools" "final answer"
    "boom" (by omega) rfl rfl rfl rfl rfl rfl

/-! ## C1 : the iteration controller -/

/-- C1: the iteration controller is a pure function of
`(iterationCount, minIterations, maxIterations, hasErrors)` returning
ITERATE exactly when `iterationCount < minIterations` or `hasErrors`
holds with `iterationCount < maxIterations`, and FINISH otherwise; in
particular it yields ITERATE on `(0,2,3,false)` and `(2,2,3,true)` and
FINISH on `(3,2,3,true)` and `(2,2,3,false)`. -/
theorem c1_iteration_controller :
    (∀ s : ArchState, iteration_condition s = "iterate" ↔
       (s.iteration_count.getD 0 < s.min_iterations.getD 1 ∨
        (s.has_validation_errors.getD false = true ∧
         s.iteration_count.getD 0 < s.max_iterations.getD 3))) ∧
    iteration_condition (mkCtrlState 0 2 3 false) = "iterate" ∧
    iteration_condition (mkCtrlState 2 2 3 true) = "iterate" ∧
    iteration_condition (mkCtrlState 3 2 3 true) = "finish" ∧
    iteration_condition (mkCtrlState 2 2 3 false) = "finish" := by
  refine ⟨?_, by decide, by decide, by decide, by decide⟩
  intro s
  by_cases h1 : s.iteration_count.getD 0 < s.min_iterations.getD 1
  · simp [iteration_condition, h1]
  · by_cases h2 : s.has_validation_errors.getD false = true ∧
        s.iteration_count.getD 0 < s.max_iterations.getD 3
    · simp [iteration_condition, h1, h2]
    · by_cases h3 : s.iteration_count.getD 0 ≥ s.max_iterations.getD 3
      · simp [iteration_condition, h1, h2, h3]
      · simp [iteration_condition, h1, h2, h3]

/-! ## C2 : the supervisor's error flag is not the one the controller reads -/

/-- C2 (failing input): from a clean pass-1 state with
`iteration_count = 1`, `min_iterations = 2`, `max_iterations = 3`, a
supervisor whose structured oracle yields `None` on all three attempts
returns the error-flagged update `\x7biteration_count: 2,
factual_errors_exist: True\x7d` — but it never writes
`has_validation_errors`, the key `iteration_condition` actually reads,
so the controller returns `"finish"` on the merged state even though
`iteration_count = 2 < 3 = max_iterations`, where the claim expects
ITERATE. -/
theorem c2_supervisor_error_flag_unread_by_controller :
    ∃ u, architect_supervisor failLLM c2State 3 = some u ∧
      u.factual_errors_exist = some true ∧
      u.has_validation_errors = none ∧
      ∀ md5 : String → String,
        (applyUpdate md5 c2State u).factual_errors_exist = some true ∧
        (applyUpdate md5 c2State u).iteration_count = some 2 ∧
        (applyUpdate md5 c2State u).iteration_count.getD 0 <
          (applyUpdate md5 c2State u).max_iterations.getD 3 ∧
        iteration_condition (applyUpdate md5 c2State u) = "finish" := by
  refine ⟨c2Update, ?_, rfl, rfl, ?_⟩
  · simp [architect_supervisor, c2State, supervisorAttempts, failLLM, c2Update,
      emptyUpdate]
  · intro md5
    refine ⟨rfl, rfl, ?_, rfl⟩
    have hit : (applyUpdate md5 c2State c2Update).iteration_count = some 2 := rfl
    have hmax : (applyUpdate md5 c2State c2Update).max_iterations = some 3 := rfl
    rw [hit, hmax]
    decide

/-! ## C3 : the loop-back reset leaves the component map untouched -/

/-- C3 (failing input): `c3State` takes the ITERATE branch, and the
supervisor's successful update carries the intended resets
(`validation_feedback: []`, `architecture_components: \x7b\x7d`,
`factual_errors_exist: False`); applied through the reducers, the
feedback list and the error flag are indeed reset, but
`merge_dicts(old, \x7b\x7d)` is a no-op, so the architecture components
map still holds the previous iteration's `compute` entry instead of
being empty as the claim states. -/
theorem c3_iterate_reset_leaves_components :
    iteration_condition c3State = "iterate" ∧
    ∃ u, architect_supervisor okLLM c3State 3 = some u ∧
      u.validation_feedback = some [] ∧
      u.architecture_components = some [] ∧
      u.factual_errors_exist = some false ∧
      ∀ md5 : String → String,
        (applyUpdate md5 c3State u).validation_feedback = some [] ∧
        (applyUpdate md5 c3State u).factual_errors_exist = some false ∧
        (applyUpdate md5 c3State u).architecture_components =
          some [("compute", .vdict [("recommendations", .vstr "old")])] ∧
        (applyUpdate md5 c3State u).architecture_components ≠ some [] := by
  refine ⟨by decide, c3Update, ?_, rfl, rfl, rfl, ?_⟩
  · simp [architect_supervisor, c3State, supervisorAttempts, okLLM, td0, c3Update,
      emptyUpdate]
  · intro md5
    have hcomp : (applyUpdate md5 c3State c3Update).architecture_components =
        some [("compute", .vdict [("recommendations", .vstr "old")])] := by
      simp [applyUpdate, c3State, c3Update, merge_dicts]
    refine ⟨?_, rfl, hcomp, by rw [hcomp]; simp⟩
    simp [applyUpdate, c3State, c3Update, validation_feedback_reducer]

/-! ## C10 : the factual-errors flag is last-write-wins across the fan-in -/

/-- C10: `factual_errors_exist` uses the plain-overwrite reducer
`lambda a, b: b`, so after sequentially applying the updates of several
parallel validators the merged flag equals the last-applied validator's
`has_errors` value only; in particular a later-applied `False` erases an
earlier `True`. -/
theorem c10_factual_errors_last_write_wins :
    (∀ (md5 : String → String) (s : ArchState) (items : List FeedbackItem)
       (h : items ≠ []),
       ((items.map validatorUpdate).foldl (applyUpdate md5) s).factual_errors_exist
         = some ((items.getLast h).has_errors)) ∧
    (∀ (md5 : String → String) (s : ArchState) (i1 i2 : FeedbackItem),
       i1.has_errors = true → i2.has_errors = false →
       (applyUpdate md5 (applyUpdate md5 s (validatorUpdate i1))
           (validatorUpdate i2)).factual_errors_exist = some false) := by
  constructor
  · intro md5 s items h
    induction items generalizing s with
    | nil => exact absurd rfl h
    | cons a t ih =>
      cases t with
      | nil => simp [applyUpdate, validatorUpdate, emptyUpdate, factual_errors_reducer]
      | cons b t2 =>
        rw [List.map_cons, List.foldl_cons,
          List.getLast_cons (by simp : b :: t2 ≠ [])]
        exact ih (applyUpdate md5 s (validatorUpdate a)) (by simp)
  · intro md5 s i1 i2 _h1 h2
    simp [applyUpdate, validatorUpdate, emptyUpdate, factual_errors_reducer, h2]

/-! ## Ordered-dict lemmas for the dedup-append reducer -/

theorem setKey_mem {α : Type} (d : List (String × α)) (k : String) (v : α) :
    ∀ p ∈ setKey d k v, p ∈ d ∨ p = (k, v) := by
  induction d with
  | nil =>
    intro p hp
    simp [setKey] at hp
    right
    exact hp
  | cons q rest ih =>
    obtain ⟨k2, v2⟩ := q
    intro p hp
    by_cases h : k2 = k
    · simp [setKey, h] at hp
      rcases hp with h1 | h1
      · right
        simp [h1, h]
      · left
        simp [h1]
    · simp [setKey, h] at hp
      rcases hp with h1 | h1
      · left
        simp [h1]
      · rcases ih p h1 with h2 | h2
        · left
          simp [h2]
        · right
          exact h2

theorem setKey_keys {α : Type} (d : List (String × α)) (k : String) (v : α) :
    (setKey d k v).map Prod.fst
      = if k ∈ d.map Prod.fst then d.map Prod.fst
        else d.map Prod.fst ++ [k] := by
  induction d with
  | nil => simp [setKey]
  | cons q rest ih =>
    obtain ⟨k2, v2⟩ := q
    by_cases h : k2 = k
    · simp [setKey, h]
    · by_cases h2 : k ∈ rest.map Prod.fst
      · simp [setKey, h, ih, h2, Ne.symm h]
      · simp [setKey, h, ih, h2, Ne.symm h]

theorem setKey_keys_nodup {α : Type} (d : List (String × α)) (k : String) (v : α)
    (h : (d.map Prod.fst).Nodup) : ((setKey d k v).map Prod.fst).Nodup := by
  rw [setKey_keys]
  by_cases h2 : k ∈ d.map Prod.fst
  · simpa [h2] using h
  · simp only [h2, if_false]
    rw [List.nodup_append]
    refine ⟨h, List.nodup_singleton k, ?_⟩
    intro a ha hb
    simp at hb
    subst hb
    exact h2 ha

theorem filter_key_of_not_mem {α : Type} (d : List (String × α)) (k : String)
    (h : k ∉ d.map Prod.fst) : d.filter (fun p => p.1 == k) = [] := by
  induction d with
  | nil => rfl
  | cons q rest ih =>
    obtain ⟨k2, v2⟩ := q
    simp only [List.map_cons, List.mem_cons] at h
    push_neg at h
    have hne : (k2 == k) = false := by
      simp [beq_eq_false_iff_ne]
      exact fun he => h.1 he.symm
    simp [List.filter_cons, hne, ih h.2]

theorem filter_key_length_le_one {α : Type} (d : List (String × α)) (k : String)
    (hnd : (d.map Prod.fst).Nodup) :
    (d.filter (fun p => p.1 == k)).length ≤ 1 := by
  induction d with
  | nil => simp
  | cons q rest ih =>
    obtain ⟨k2, v⟩ := q
    simp only [List.map_cons, List.nodup_cons] at hnd
    by_cases h : k2 = k
    · subst h
      have hr : rest.filter (fun p => p.1 == k2) = [] :=
        filter_key_of_not_mem rest k2 hnd.1
      simp [List.filter_cons, hr]
    · have hne : (k2 == k) = false := by simp [beq_eq_false_iff_ne, h]
      simp only [List.filter_cons, hne, Bool.false_eq_true, if_false]
      exact ih hnd.2

theorem setKey_filter_self {α : Type} (d : List (String × α)) (k : String) (v : α)
    (hnd : (d.map Prod.fst).Nodup) :
    (setKey d k v).filter (fun p => p.1 == k) = [(k, v)] := by
  induction d with
  | nil => simp [setKey]
  | cons q rest ih =>
    obtain ⟨k2, v2⟩ := q
    simp only [List.map_cons, List.nodup_cons] at hnd
    by_cases h : k2 = k
    · subst h
      have hr : rest.filter (fun p => p.1 == k2) = [] :=
        filter_key_of_not_mem rest k2 hnd.1
      simp [setKey, List.filter_cons, hr]
    · have hne : (k2 == k) = false := by simp [beq_eq_false_iff_ne, h]
      simp [setKey, h, List.filter_cons, hne, ih hnd.2]

theorem setKey_filter_ne {α : Type} (d : List (String × α)) (k k2 : String) (v : α)
    (h : k2 ≠ k) :
    (setKey d k2 v).filter (fun p => p.1 == k) = d.filter (fun p => p.1 == k) := by
  induction d with
  | nil =>
    have hne : (k2 == k) = false := by simp [beq_eq_false_iff_ne, h]
    simp [setKey, List.filter_cons, hne]
  | cons q rest ih =>
    obtain ⟨k3, v3⟩ := q
    by_cases h3 : k3 = k2
    · subst h3
      have hne : (k3 == k) = false := by simp [beq_eq_false_iff_ne, h]
      simp [setKey, List.filter_cons, hne]
    · simp only [setKey, if_neg h3, List.filter_cons]
      by_cases h4 : (k3 == k) = true
      · simp [h4, ih]
      · simp [h4, ih]

/-- Values-level filter against the fingerprint agrees with the
entries-level filter against the key, for a dict whose keys are the
fingerprints of their values. -/
theorem values_filter_eq (md5 : String → String) (k : String) :
    ∀ (acc : List (String × FeedbackItem)),
      (∀ p ∈ acc, p.1 = itemKey md5 p.2) →
      (acc.map Prod.snd).filter (fun it => itemKey md5 it == k)
        = (acc.filter (fun p => p.1 == k)).map Prod.snd := by
  intro acc
  induction acc with
  | nil => intro _; rfl
  | cons p rest ih =>
    intro hinv
    obtain ⟨k2, it⟩ := p
    have hk2 : k2 = itemKey md5 it := hinv (k2, it) (by simp)
    have hrest : ∀ q ∈ rest, q.1 = itemKey md5 q.2 :=
      fun q hq => hinv q (by simp [hq])
    subst hk2
    by_cases hq : (itemKey md5 it == k) = true
    · simp [List.filter_cons, hq, ih hrest]
    · simp [List.filter_cons, hq, ih hrest]

theorem short_list_eq_getLast {α : Type} (l : List α) (h : l.length ≤ 1) :
    l = l.getLast?.toList := by
  match l with
  | [] => rfl
  | [a] => rfl
  | a :: b :: t => simp at h

/-- Per-fingerprint content of `feedback_dict` values: for every
fingerprint the dict retains exactly the most recently inserted item
carrying it (or the surviving `acc` entry when no item does). -/
theorem buildFeedbackDict_values_filter (md5 : String → String) (k : String) :
    ∀ (items : List FeedbackItem) (acc : List (String × FeedbackItem)),
      (∀ p ∈ acc, p.1 = itemKey md5 p.2) → (acc.map Prod.fst).Nodup →
      ((buildFeedbackDict md5 items acc).map Prod.snd).filter
          (fun it => itemKey md5 it == k)
        = ((acc.map Prod.snd ++ items).filter
            (fun it => itemKey md5 it == k)).getLast?.toList := by
  intro items
  induction items with
  | nil =>
    intro acc hinv hnd
    rw [buildFeedbackDict, List.append_nil, values_filter_eq md5 k acc hinv]
    have hlen : ((acc.filter (fun p => p.1 == k)).map Prod.snd).length ≤ 1 := by
      rw [List.length_map]
      exact filter_key_length_le_one acc k hnd
    exact short_list_eq_getLast _ hlen
  | cons it rest ih =>
    intro acc hinv hnd
    rw [buildFeedbackDict]
    have hinv2 : ∀ p ∈ setKey acc (itemKey md5 it) it, p.1 = itemKey md5 p.2 := by
      intro p hp
      rcases setKey_mem acc (itemKey md5 it) it p hp with h1 | h1
      · exact hinv p h1
      · subst h1
        rfl
    have hnd2 : ((setKey acc (itemKey md5 it) it).map Prod.fst).Nodup :=
      setKey_keys_nodup acc (itemKey md5 it) it hnd
    rw [ih (setKey acc (itemKey md5 it) it) hinv2 hnd2]
    rw [List.filter_append, List.filter_append,
      values_filter_eq md5 k _ hinv2, values_filter_eq md5 k acc hinv]
    by_cases hq : (itemKey md5 it == k) = true
    · have hkk : itemKey md5 it = k := eq_of_beq hq
      rw [hkk, setKey_filter_self acc k it hnd]
      have hcons : (it :: rest).filter (fun x => itemKey md5 x == k)
          = it :: rest.filter (fun x => itemKey md5 x == k) := by
        simp [List.filter_cons, hkk]
      rw [hcons]
      have hmap : ([(k, it)].map Prod.snd) = [it] := rfl
      rw [hmap, List.singleton_append, List.getLast?_append_cons]
    · have hkk : itemKey md5 it ≠ k := by
        intro he
        simp [he] at hq
      rw [setKey_filter_ne acc k (itemKey md5 it) it hkk]
      have hcons : (it :: rest).filter (fun x => itemKey md5 x == k)
          = rest.filter (fun x => itemKey md5 x == k) := by
        simp [List.filter_cons, hq]
      rw [hcons]

theorem setKey_length_ge {α : Type} (d : List (String × α)) (k : String) (v : α) :
    d.length ≤ (setKey d k v).length := by
  induction d with
  | nil => simp [setKey]
  | cons q rest ih =>
    obtain ⟨k2, v2⟩ := q
    by_cases h : k2 = k
    · simp [setKey, h]
    · simpa [setKey, h] using ih

theorem buildFeedbackDict_length_ge (md5 : String → String) :
    ∀ (items : List FeedbackItem) (acc : List (String × FeedbackItem)),
      acc.length ≤ (buildFeedbackDict md5 items acc).length := by
  intro items
  induction items with
  | nil =>
    intro acc
    simp [buildFeedbackDict]
  | cons it rest ih =>
    intro acc
    rw [buildFeedbackDict]
    exact le_trans (setKey_length_ge acc (itemKey md5 it) it)
      (ih (setKey acc (itemKey md5 it) it))

/-- Two non-empty lists merge into a non-empty result. -/
theorem validation_feedback_reducer_ne_nil (md5 : String → String)
    (l r : List FeedbackItem) (hl : l ≠ []) (hr : r ≠ []) :
    validation_feedback_reducer md5 l r ≠ [] := by
  have h1 : ¬(r = [] ∧ l ≠ []) := fun hc => hr hc.1
  rw [validation_feedback_reducer, if_neg h1, if_neg hr, if_neg hl]
  obtain ⟨it, rest, rfl⟩ : ∃ it rest, l = it :: rest := by
    cases l with
    | nil => exact absurd rfl hl
    | cons a t => exact ⟨a, t, rfl⟩
  rw [List.cons_append, buildFeedbackDict]
  have hlen : 1 ≤ (buildFeedbackDict md5 (rest ++ r)
      (setKey [] (itemKey md5 it) it)).length :=
    buildFeedbackDict_length_ge md5 (rest ++ r) (setKey [] (itemKey md5 it) it)
  intro hc
  rw [← List.length_eq_zero, List.length_map] at hc
  omega

/-- Per-fingerprint characterization of the dedup-append merge of two
non-empty lists: for every fingerprint the output holds exactly the last
item of `left ++ right` carrying it. -/
theorem validation_feedback_reducer_filter (md5 : String → String)
    (l r : List FeedbackItem) (k : String) (hl : l ≠ []) (hr : r ≠ []) :
    (validation_feedback_reducer md5 l r).filter (fun it => itemKey md5 it == k)
      = ((l ++ r).filter (fun it => itemKey md5 it == k)).getLast?.toList := by
  have h1 : ¬(r = [] ∧ l ≠ []) := fun hc => hr hc.1
  rw [validation_feedback_reducer, if_neg h1, if_neg hr, if_neg hl]
  have h := buildFeedbackDict_values_filter md5 k (l ++ r) [] (by simp) (by simp)
  simpa using h

/-! ## C4 : dedup-append reset and collapse -/

/-- C4: applying the explicitly empty update to any non-empty feedback
list resets it to `[]`; and when two non-empty lists merge, for every
fingerprint `(domain, contentHash)` the output retains exactly one item
— the most recently applied one carrying that fingerprint (any two items
sharing a fingerprint collapse, later value kept). -/
theorem c4_dedup_append :
    (∀ (md5 : String → String) (l : List FeedbackItem), l ≠ [] →
       validation_feedback_reducer md5 l [] = []) ∧
    (∀ (md5 : String → String) (l r : List FeedbackItem) (k : String),
       l ≠ [] → r ≠ [] →
       (validation_feedback_reducer md5 l r).filter (fun it => itemKey md5 it == k)
         = ((l ++ r).filter (fun it => itemKey md5 it == k)).getLast?.toList) := by
  constructor
  · intro md5 l hl
    simp [validation_feedback_reducer, hl]
  · intro md5 l r k hl hr
    exact validation_feedback_reducer_filter md5 l r k hl hr

/-- C4 witness: a reset at a concrete non-empty list, and the collapse
of two items sharing the fingerprint `"d_h"` to the later one. -/
theorem c4_witness :
    validation_feedback_reducer hash0 [fbItem "a" "x" false] [] = [] ∧
    (validation_feedback_reducer hash0 [fbItem "d" "old" true, fbItem "e" "y" false]
        [fbItem "d" "new" false]).filter (fun it => itemKey hash0 it == "d_h")
      = (([fbItem "d" "old" true, fbItem "e" "y" false] ++ [fbItem "d" "new" false]).filter
          (fun it => itemKey hash0 it == "d_h")).getLast?.toList :=
  ⟨c4_dedup_append.1 hash0 [fbItem "a" "x" false] (by simp),
   c4_dedup_append.2 hash0 [fbItem "d" "old" true, fbItem "e" "y" false]
     [fbItem "d" "new" false] "d_h" (by simp) (by simp)⟩

/-! ## Lookup and length lemmas for merge_dicts -/

theorem dictGet_eq_none_iff {α : Type} (d : List (String × α)) (k : String) :
    dictGet d k = none ↔ k ∉ d.map Prod.fst := by
  induction d with
  | nil => simp [dictGet]
  | cons q rest ih =>
    obtain ⟨k2, v⟩ := q
    by_cases h : k2 = k
    · simp [dictGet, h]
    · simp [dictGet, h, ih, Ne.symm h]

theorem mem_keys_of_dictGet_some {α : Type} (d : List (String × α)) (k : String)
    (v : α) (h : dictGet d k = some v) : k ∈ d.map Prod.fst := by
  by_contra hc
  have hn := (dictGet_eq_none_iff d k).2 hc
  rw [h] at hn
  cases hn

/-- Lookup after a deep merge, for a right dict with unique keys. -/
theorem dictGet_merge (right : PyDict) (k : String) :
    ∀ left : PyDict, (right.map Prod.fst).Nodup →
      dictGet (merge_dicts left right) k
        = match dictGet right k with
          | none => dictGet left k
          | some v => some (mergeVal (dictGet left k) v) := by
  induction right with
  | nil =>
    intro left _
    simp [merge_dicts, dictGet]
  | cons p rest ih =>
    intro left hnd
    obtain ⟨k2, v⟩ := p
    simp only [List.map_cons, List.nodup_cons] at hnd
    rw [merge_dicts_cons, ih _ hnd.2]
    by_cases hk : k2 = k
    · subst hk
      have hrest : dictGet rest k2 = none := (dictGet_eq_none_iff rest k2).2 hnd.1
      rw [hrest]
      simp [dictGet, dictGet_setKey_self]
    · simp only [dictGet_setKey_ne _ _ _ _ hk]
      simp [dictGet, hk]

theorem mem_keys_setKey {α : Type} (d : List (String × α)) (k2 : String) (v : α)
    (k : String) :
    k ∈ (setKey d k2 v).map Prod.fst ↔ k = k2 ∨ k ∈ d.map Prod.fst := by
  rw [setKey_keys]
  by_cases h : k2 ∈ d.map Prod.fst
  · simp only [h, if_true]
    constructor
    · exact Or.inr
    · rintro (rfl | hk)
      · exact h
      · exact hk
  · simp [h, List.mem_append, or_comm]

theorem mem_keys_merge (right : PyDict) (k : String) :
    ∀ left : PyDict,
      k ∈ (merge_dicts left right).map Prod.fst
        ↔ k ∈ left.map Prod.fst ∨ k ∈ right.map Prod.fst := by
  induction right with
  | nil =>
    intro left
    simp [merge_dicts]
  | cons p rest ih =>
    intro left
    obtain ⟨k2, v⟩ := p
    rw [merge_dicts_cons, ih, mem_keys_setKey]
    simp only [List.map_cons, List.mem_cons]
    tauto

theorem setKey_length {α : Type} (d : List (String × α)) (k : String) (v : α) :
    (setKey d k v).length
      = if k ∈ d.map Prod.fst then d.length else d.length + 1 := by
  have h2 : (setKey d k v).length = ((setKey d k v).map Prod.fst).length :=
    (List.length_map _ _).symm
  rw [h2, setKey_keys]
  by_cases hm : k ∈ d.map Prod.fst
  · simp [hm]
  · simp [hm]

/-- Size of a deep merge: the left size plus the number of right entries
whose key is new, for a right dict with unique keys. -/
theorem merge_length (right : PyDict) :
    ∀ left : PyDict, (right.map Prod.fst).Nodup →
      (merge_dicts left right).length
        = left.length + (right.filter
            (fun p => decide (p.1 ∉ left.map Prod.fst))).length := by
  induction right with
  | nil =>
    intro left _
    simp [merge_dicts]
  | cons p rest ih =>
    intro left hnd
    obtain ⟨k2, v⟩ := p
    simp only [List.map_cons, List.nodup_cons] at hnd
    rw [merge_dicts_cons, ih _ hnd.2, setKey_length]
    have hcong : rest.filter (fun p => decide (p.1 ∉
          (setKey left k2 (mergeVal (dictGet left k2) v)).map Prod.fst))
        = rest.filter (fun p => decide (p.1 ∉ left.map Prod.fst)) := by
      apply List.filter_congr
      intro q hq
      have hqk : q.1 ≠ k2 := by
        intro he
        exact hnd.1 (he ▸ List.mem_map_of_mem Prod.fst hq)
      rw [decide_eq_decide, mem_keys_setKey]
      tauto
    rw [hcong]
    by_cases hm : k2 ∈ left.map Prod.fst
    · simp only [hm, if_true, List.filter_cons]
      simp [hm]
    · simp only [hm, if_false, List.filter_cons]
      simp [hm]
      omega

/-! ## Option/getLast? helpers -/

theorem toList_getLast? {α : Type} (o : Option α) : o.toList.getLast? = o := by
  cases o <;> rfl

theorem getLast?_toList_append {α : Type} (S B : List α) :
    (S.getLast?.toList ++ B).getLast? = (S ++ B).getLast? := by
  cases B with
  | nil =>
    simp only [List.append_nil]
    exact toList_getLast? S.getLast?
  | cons x xs =>
    rw [List.getLast?_append_of_ne_nil _ (by simp),
      List.getLast?_append_of_ne_nil _ (by simp)]

/-! ## Well-formedness, Python equality and deep-merge commutation -/

theorem setKey_append {α : Type} (d : List (String × α)) (k : String) (v : α)
    (h : k ∉ d.map Prod.fst) : setKey d k v = d ++ [(k, v)] := by
  induction d with
  | nil => simp [setKey]
  | cons q rest ih =>
    obtain ⟨k2, v2⟩ := q
    simp only [List.map_cons, List.mem_cons] at h
    push_neg at h
    have h2 : k2 ≠ k := fun he => h.1 he.symm
    simp [setKey, h2, ih h.2]

/-- Merging a dict whose keys are all new appends its entries. -/
theorem merge_append (right : PyDict) :
    ∀ left : PyDict, (∀ k ∈ right.map Prod.fst, k ∉ left.map Prod.fst) →
      (right.map Prod.fst).Nodup → merge_dicts left right = left ++ right := by
  induction right with
  | nil =>
    intro left _ _
    simp [merge_dicts]
  | cons p rest ih =>
    intro left hdis hnd
    obtain ⟨k, v⟩ := p
    simp only [List.map_cons, List.nodup_cons] at hnd
    have hk : k ∉ left.map Prod.fst := hdis k (by simp)
    have hget : dictGet left k = none := (dictGet_eq_none_iff left k).2 hk
    rw [merge_dicts_cons, hget]
    have hmv : mergeVal none v = v := by
      cases v <;> simp [mergeVal]
    rw [hmv, setKey_append left k v hk]
    rw [ih (left ++ [(k, v)]) ?_ hnd.2]
    · simp
    · intro k2 hk2
      simp only [List.map_append, List.mem_append]
      push_neg
      refine ⟨hdis k2 (by simp [hk2]), ?_⟩
      simp only [List.map_cons, List.map_nil, List.mem_singleton]
      intro he
      exact hnd.1 (he ▸ hk2)

theorem merge_nil_left (d : PyDict) (hnd : (d.map Prod.fst).Nodup) :
    merge_dicts [] d = d := by
  rw [merge_append d [] (by simp) hnd]
  simp

theorem merge_keys_nodup (right : PyDict) :
    ∀ left : PyDict, (left.map Prod.fst).Nodup →
      ((merge_dicts left right).map Prod.fst).Nodup := by
  induction right with
  | nil =>
    intro left hl
    simpa [merge_dicts] using hl
  | cons p rest ih =>
    intro left hl
    obtain ⟨k, v⟩ := p
    rw [merge_dicts_cons]
    exact ih _ (setKey_keys_nodup left k _ hl)

/-- Entries-to-lookup coherence under unique keys. -/
theorem dict_entries_get {α : Type} (d : List (String × α))
    (hnd : (d.map Prod.fst).Nodup) :
    ∀ p ∈ d, dictGet d p.1 = some p.2 := by
  induction d with
  | nil => intro p hp; cases hp
  | cons q rest ih =>
    obtain ⟨k2, v2⟩ := q
    simp only [List.map_cons, List.nodup_cons] at hnd
    intro p hp
    rcases List.mem_cons.1 hp with h | h
    · subst h
      simp [dictGet]
    · have hne : k2 ≠ p.1 := by
        intro he
        exact hnd.1 (he ▸ List.mem_map_of_mem Prod.fst h)
      simp [dictGet, hne, ih hnd.2 p h]

theorem dictGet_mem {α : Type} (d : List (String × α)) (k : String) (v : α)
    (h : dictGet d k = some v) : (k, v) ∈ d := by
  induction d with
  | nil => cases h
  | cons q rest ih =>
    obtain ⟨k2, v2⟩ := q
    by_cases h2 : k2 = k
    · subst h2
      simp [dictGet] at h
      simp [h]
    · simp only [dictGet, if_neg h2] at h
      exact List.mem_cons_of_mem _ (ih h)

theorem wfVal_vdict (d : PyDict) : wfVal (.vdict d) = wfDict d := by
  simp [wfVal, wfDict]

theorem wfDict_nodup (d : PyDict) (h : wfDict d = true) :
    (d.map Prod.fst).Nodup := by
  rw [wfDict, Bool.and_eq_true] at h
  exact of_decide_eq_true h.1

theorem wfDict_entries (d : PyDict) (h : wfDict d = true) : wfEntries d = true := by
  rw [wfDict, Bool.and_eq_true] at h
  exact h.2

theorem wfEntries_val (d : PyDict) (h : wfEntries d = true) :
    ∀ p ∈ d, wfVal p.2 = true := by
  induction d with
  | nil =>
    intro p hp
    cases hp
  | cons q rest ih =>
    obtain ⟨k2, v2⟩ := q
    simp only [wfEntries, Bool.and_eq_true] at h
    intro p hp
    rcases List.mem_cons.1 hp with h1 | h1
    · rw [h1]
      exact h.1
    · exact ih h.2 p h1

theorem wfEntries_of_forall (d : PyDict) (h : ∀ p ∈ d, wfVal p.2 = true) :
    wfEntries d = true := by
  induction d with
  | nil => simp [wfEntries]
  | cons q rest ih =>
    obtain ⟨k2, v2⟩ := q
    simp only [wfEntries, Bool.and_eq_true]
    exact ⟨h (k2, v2) (by simp), ih (fun p hp => h p (by simp [hp]))⟩

theorem wfDict_intro (d : PyDict) (h1 : (d.map Prod.fst).Nodup)
    (h2 : ∀ p ∈ d, wfVal p.2 = true) : wfDict d = true := by
  rw [wfDict, Bool.and_eq_true]
  exact ⟨decide_eq_true h1, wfEntries_of_forall d h2⟩

theorem wfVal_of_get (d : PyDict) (k : String) (v : Val)
    (hd : wfDict d = true) (h : dictGet d k = some v) : wfVal v = true :=
  wfEntries_val d (wfDict_entries d hd) (k, v) (dictGet_mem d k v h)

/-- One merged value is either the incoming value or the recursive merge
of two dicts. -/
theorem mergeVal_cases (o : Option Val) (v : Val) :
    mergeVal o v = v ∨ ∃ d1 d2, o = some (.vdict d1) ∧ v = .vdict d2 ∧
      mergeVal o v = .vdict (merge_dicts d1 d2) := by
  cases o with
  | none =>
    left
    cases v <;> simp [mergeVal]
  | some w =>
    cases w with
    | vdict d1 =>
      cases v with
      | vdict d2 => exact Or.inr ⟨d1, d2, rfl, rfl, by simp [mergeVal]⟩
      | vint n => left; simp [mergeVal]
      | vstr s => left; simp [mergeVal]
      | vbool b => left; simp [mergeVal]
      | vlist l => left; simp [mergeVal]
    | vint n => left; cases v <;> simp [mergeVal]
    | vstr s => left; cases v <;> simp [mergeVal]
    | vbool b => left; cases v <;> simp [mergeVal]
    | vlist l => left; cases v <;> simp [mergeVal]

/-- Deep merge preserves well-formedness. -/
theorem merge_wf : ∀ (n : Nat) (r l : PyDict), sizeOf r ≤ n →
    wfDict l = true → wfDict r = true → wfDict (merge_dicts l r) = true := by
  intro n
  induction n with
  | zero =>
    intro r l hle
    exfalso
    cases r with
    | nil => simp at hle
    | cons p rest =>
      simp only [List.cons.sizeOf_spec] at hle
      omega
  | succ m ih =>
    intro r l hle hl hr
    cases r with
    | nil => simpa [merge_dicts] using hl
    | cons p rest =>
      obtain ⟨k, v⟩ := p
      have hndr := wfDict_nodup _ hr
      simp only [List.map_cons, List.nodup_cons] at hndr
      have hentr := wfDict_entries _ hr
      simp only [wfEntries, Bool.and_eq_true] at hentr
      have hrestwf : wfDict rest = true :=
        wfDict_intro rest hndr.2 (wfEntries_val rest hentr.2)
      have hw : wfVal (mergeVal (dictGet l k) v) = true := by
        rcases mergeVal_cases (dictGet l k) v with hcase | ⟨d1, d2, ho, hv, hm⟩
        · rw [hcase]
          exact hentr.1
        · rw [hm, wfVal_vdict]
          have hd1 : wfDict d1 = true := by
            have hwf := wfVal_of_get l k _ hl ho
            rwa [wfVal_vdict] at hwf
          have hd2 : wfDict d2 = true := by
            have hwf := hentr.1
            rw [hv] at hwf
            rwa [wfVal_vdict] at hwf
          have hszd2 : sizeOf d2 ≤ m := by
            subst hv
            simp only [List.cons.sizeOf_spec, Prod.mk.sizeOf_spec,
              Val.vdict.sizeOf_spec] at hle
            omega
          exact ih d2 d1 hszd2 hd1 hd2
      have hset : wfDict (setKey l k (mergeVal (dictGet l k) v)) = true := by
        apply wfDict_intro
        · exact setKey_keys_nodup l k _ (wfDict_nodup l hl)
        · intro p hp
          rcases setKey_mem l k _ p hp with h1 | h1
          · exact wfEntries_val l (wfDict_entries l hl) p h1
          · rw [h1]
            exact hw
      rw [merge_dicts_cons]
      refine ih rest _ ?_ hset hrestwf
      simp only [List.cons.sizeOf_spec, Prod.mk.sizeOf_spec] at hle
      omega

theorem pyEqEntries_of_forall (d1 d2 : PyDict)
    (h : ∀ p ∈ d1, ∃ w, dictGet d2 p.1 = some w ∧ pyEqVal p.2 w = true) :
    pyEqEntries d1 d2 = true := by
  induction d1 with
  | nil => simp [pyEqEntries]
  | cons q rest ih =>
    obtain ⟨k, v⟩ := q
    obtain ⟨w, hw, hpe⟩ := h (k, v) (by simp)
    simp only [pyEqEntries, Bool.and_eq_true]
    constructor
    · simp only at hw
      simp [hw, hpe]
    · exact ih (fun p hp => h p (by simp [hp]))

/-- Reflexivity of Python equality on well-formed values. -/
theorem pyEqVal_refl : ∀ (n : Nat),
    (∀ v : Val, sizeOf v ≤ n → wfVal v = true → pyEqVal v v = true) ∧
    (∀ l : List Val, sizeOf l ≤ n → wfList l = true → pyEqList l l = true) := by
  intro n
  induction n with
  | zero =>
    constructor
    · intro v hle
      exfalso
      have h1 : 1 ≤ sizeOf v := by cases v <;> simp_arith
      omega
    · intro l hle
      exfalso
      have h1 : 1 ≤ sizeOf l := by cases l <;> simp_arith
      omega
  | succ m ih =>
    constructor
    · intro v hle hwf
      cases v with
      | vint a => simp [pyEqVal]
      | vstr a => simp [pyEqVal]
      | vbool a => simp [pyEqVal]
      | vlist l =>
        have heq : pyEqVal (.vlist l) (.vlist l) = pyEqList l l := by
          simp [pyEqVal]
        have hwl : wfList l = true := by
          simpa [wfVal] using hwf
        rw [heq]
        refine ih.2 l ?_ hwl
        simp only [Val.vlist.sizeOf_spec] at hle
        omega
      | vdict d =>
        have hd : wfDict d = true := by rwa [wfVal_vdict] at hwf
        have heq : pyEqVal (.vdict d) (.vdict d)
            = ((d.length == d.length) && pyEqEntries d d) := by
          simp [pyEqVal]
        rw [heq, Bool.and_eq_true]
        refine ⟨by simp, ?_⟩
        apply pyEqEntries_of_forall
        intro p hp
        refine ⟨p.2, dict_entries_get d (wfDict_nodup d hd) p hp, ?_⟩
        refine ih.1 p.2 ?_ (wfEntries_val d (wfDict_entries d hd) p hp)
        have h1 : sizeOf p < sizeOf d := List.sizeOf_lt_of_mem hp
        obtain ⟨x, y⟩ := p
        simp only [Prod.mk.sizeOf_spec] at h1
        simp only [Val.vdict.sizeOf_spec] at hle
        simp only []
        omega
    · intro l hle hwf
      cases l with
      | nil => simp [pyEqList]
      | cons x xs =>
        simp only [wfList, Bool.and_eq_true] at hwf
        have heq : pyEqList (x :: xs) (x :: xs)
            = (pyEqVal x x && pyEqList xs xs) := by
          simp [pyEqList]
        rw [heq, Bool.and_eq_true]
        simp only [List.cons.sizeOf_spec] at hle
        exact ⟨ih.1 x (by omega) hwf.1, ih.2 xs (by omega) hwf.2⟩

/-- At any key both updates carry, sub-disjointness forces two dicts
that are again sub-disjoint. -/
theorem subDisjoint_get (a : PyDict) :
    ∀ (b : PyDict) (k : String) (va vb : Val),
      subDisjoint a b = true → dictGet a k = some va → dictGet b k = some vb →
      ∃ da db, va = .vdict da ∧ vb = .vdict db ∧ subDisjoint da db = true := by
  induction a with
  | nil =>
    intro b k va vb _ hga
    cases hga
  | cons q rest ih =>
    intro b k va vb hsd hga hgb
    obtain ⟨k2, v2⟩ := q
    simp only [subDisjoint, Bool.and_eq_true] at hsd
    obtain ⟨h1, h2⟩ := hsd
    by_cases hk : k2 = k
    · subst hk
      rw [show dictGet ((k2, v2) :: rest) k2 = some v2 from by simp [dictGet]] at hga
      have hva : v2 = va := Option.some.inj hga
      subst hva
      rw [hgb] at h1
      cases v2 with
      | vdict da =>
        cases vb with
        | vdict db => exact ⟨da, db, rfl, rfl, by simpa using h1⟩
        | vint nn => simp at h1
        | vstr ss => simp at h1
        | vbool bb => simp at h1
        | vlist ll => simp at h1
      | vint nn => cases vb <;> simp at h1
      | vstr ss => cases vb <;> simp at h1
      | vbool bb => cases vb <;> simp at h1
      | vlist ll => cases vb <;> simp at h1
    · simp only [dictGet, if_neg hk] at hga
      exact ih b k va vb h2 hga hgb

theorem dictGet_merge_none (right : PyDict) (k : String) (left : PyDict)
    (hnd : (right.map Prod.fst).Nodup) (h : dictGet right k = none) :
    dictGet (merge_dicts left right) k = dictGet left k := by
  rw [dictGet_merge right k left hnd, h]

theorem dictGet_merge_some (right : PyDict) (k : String) (left : PyDict) (v : Val)
    (hnd : (right.map Prod.fst).Nodup) (h : dictGet right k = some v) :
    dictGet (merge_dicts left right) k = some (mergeVal (dictGet left k) v) := by
  rw [dictGet_merge right k left hnd, h]

theorem wfDict_nil : wfDict [] = true := by
  simp [wfDict, wfEntries]

/-- Deep-merge commutation up to Python equality: two well-formed
updates that touch only disjoint (sub-)keys may be merged into a
well-formed base in either order, producing dicts that are `==` in the
Python sense. -/
theorem merge_comm_pyEq : ∀ (n : Nat) (a b s : PyDict), sizeOf a ≤ n →
    wfDict s = true → wfDict a = true → wfDict b = true →
    subDisjoint a b = true →
    pyEqVal (.vdict (merge_dicts (merge_dicts s a) b))
      (.vdict (merge_dicts (merge_dicts s b) a)) = true := by
  intro n
  induction n with
  | zero =>
    intro a b s hle
    exfalso
    have h1 : 1 ≤ sizeOf a := by cases a <;> simp_arith
    omega
  | succ m ih =>
    intro a b s hle hs ha hb hdisj
    have hnds := wfDict_nodup s hs
    have hnda := wfDict_nodup a ha
    have hndb := wfDict_nodup b hb
    have hndL : ((merge_dicts (merge_dicts s a) b).map Prod.fst).Nodup :=
      merge_keys_nodup b _ (merge_keys_nodup a s hnds)
    have hndR : ((merge_dicts (merge_dicts s b) a).map Prod.fst).Nodup :=
      merge_keys_nodup a _ (merge_keys_nodup b s hnds)
    have hmem : ∀ k, k ∈ (merge_dicts (merge_dicts s a) b).map Prod.fst ↔
        k ∈ (merge_dicts (merge_dicts s b) a).map Prod.fst := by
      intro k
      rw [mem_keys_merge, mem_keys_merge, mem_keys_merge, mem_keys_merge]
      tauto
    have hlen : (merge_dicts (merge_dicts s a) b).length
        = (merge_dicts (merge_dicts s b) a).length := by
      have hTF : ((merge_dicts (merge_dicts s a) b).map Prod.fst).toFinset
          = ((merge_dicts (merge_dicts s b) a).map Prod.fst).toFinset := by
        apply Finset.ext
        intro k
        simp only [List.mem_toFinset]
        exact hmem k
      have h1 := List.toFinset_card_of_nodup hndL
      have h2 := List.toFinset_card_of_nodup hndR
      rw [hTF] at h1
      have h3 : ((merge_dicts (merge_dicts s a) b).map Prod.fst).length
          = ((merge_dicts (merge_dicts s b) a).map Prod.fst).length := by
        omega
      simpa [List.length_map] using h3
    have hmain : ∀ p ∈ merge_dicts (merge_dicts s a) b,
        ∃ w, dictGet (merge_dicts (merge_dicts s b) a) p.1 = some w ∧
          pyEqVal p.2 w = true := by
      intro p hp
      obtain ⟨k, v⟩ := p
      have hgv : dictGet (merge_dicts (merge_dicts s a) b) k = some v :=
        dict_entries_get _ hndL (k, v) hp
      simp only []
      cases hak : dictGet a k with
      | none =>
        cases hbk : dictGet b k with
        | none =>
          have hLv : dictGet (merge_dicts (merge_dicts s a) b) k = dictGet s k := by
            rw [dictGet_merge_none b k _ hndb hbk,
              dictGet_merge_none a k s hnda hak]
          have hsk : dictGet s k = some v := by
            rw [← hLv]
            exact hgv
          refine ⟨v, ?_, ?_⟩
          · rw [dictGet_merge_none a k _ hnda hak,
              dictGet_merge_none b k s hndb hbk]
            exact hsk
          · exact (pyEqVal_refl (sizeOf v)).1 v le_rfl (wfVal_of_get s k v hs hsk)
        | some vb =>
          have hLv : dictGet (merge_dicts (merge_dicts s a) b) k
              = some (mergeVal (dictGet s k) vb) := by
            rw [dictGet_merge_some b k _ vb hndb hbk,
              dictGet_merge_none a k s hnda hak]
          have hRv : dictGet (merge_dicts (merge_dicts s b) a) k
              = some (mergeVal (dictGet s k) vb) := by
            rw [dictGet_merge_none a k _ hnda hak,
              dictGet_merge_some b k s vb hndb hbk]
          have hveq : v = mergeVal (dictGet s k) vb :=
            Option.some.inj (hgv.symm.trans hLv)
          refine ⟨v, by rw [hRv, hveq], ?_⟩
          have hwv : wfVal v = true := by
            rw [hveq]
            rcases mergeVal_cases (dictGet s k) vb with hc | ⟨d1, d2, ho, hv2, hm⟩
            · rw [hc]
              exact wfVal_of_get b k vb hb hbk
            · rw [hm, wfVal_vdict]
              refine merge_wf (sizeOf d2) d2 d1 le_rfl ?_ ?_
              · have hwf := wfVal_of_get s k _ hs ho
                rwa [wfVal_vdict] at hwf
              · have hwf := wfVal_of_get b k vb hb hbk
                rw [hv2] at hwf
                rwa [wfVal_vdict] at hwf
          exact (pyEqVal_refl (sizeOf v)).1 v le_rfl hwv
      | some va =>
        cases hbk : dictGet b k with
        | none =>
          have hLv : dictGet (merge_dicts (merge_dicts s a) b) k
              = some (mergeVal (dictGet s k) va) := by
            rw [dictGet_merge_none b k _ hndb hbk,
              dictGet_merge_some a k s va hnda hak]
          have hRv : dictGet (merge_dicts (merge_dicts s b) a) k
              = some (mergeVal (dictGet (merge_dicts s b) k) va) :=
            dictGet_merge_some a k _ va hnda hak
          rw [dictGet_merge_none b k s hndb hbk] at hRv
          have hveq : v = mergeVal (dictGet s k) va :=
            Option.some.inj (hgv.symm.trans hLv)
          refine ⟨v, by rw [hRv, hveq], ?_⟩
          have hwv : wfVal v = true := by
            rw [hveq]
            rcases mergeVal_cases (dictGet s k) va with hc | ⟨d1, d2, ho, hv2, hm⟩
            · rw [hc]
              exact wfVal_of_get a k va ha hak
            · rw [hm, wfVal_vdict]
              refine merge_wf (sizeOf d2) d2 d1 le_rfl ?_ ?_
              · have hwf := wfVal_of_get s k _ hs ho
                rwa [wfVal_vdict] at hwf
              · have hwf := wfVal_of_get a k va ha hak
                rw [hv2] at hwf
                rwa [wfVal_vdict] at hwf
          exact (pyEqVal_refl (sizeOf v)).1 v le_rfl hwv
        | some vb =>
          obtain ⟨da, db, hva, hvb, hsub⟩ :=
            subDisjoint_get a b k va vb hdisj hak hbk
          subst hva
          subst hvb
          have hLv : dictGet (merge_dicts (merge_dicts s a) b) k
              = some (mergeVal (dictGet (merge_dicts s a) k) (.vdict db)) :=
            dictGet_merge_some b k _ _ hndb hbk
          rw [dictGet_merge_some a k s _ hnda hak] at hLv
          have hRv : dictGet (merge_dicts (merge_dicts s b) a) k
              = some (mergeVal (dictGet (merge_dicts s b) k) (.vdict da)) :=
            dictGet_merge_some a k _ _ hnda hak
          rw [dictGet_merge_some b k s _ hndb hbk] at hRv
          have hda : wfDict da = true := by
            have hwf := wfVal_of_get a k _ ha hak
            rwa [wfVal_vdict] at hwf
          have hdb : wfDict db = true := by
            have hwf := wfVal_of_get b k _ hb hbk
            rwa [wfVal_vdict] at hwf
          have hszda : sizeOf da ≤ m := by
            have hmem2 : (k, Val.vdict da) ∈ a := dictGet_mem a k _ hak
            have h1 : sizeOf (k, Val.vdict da) < sizeOf a :=
              List.sizeOf_lt_of_mem hmem2
            simp only [Prod.mk.sizeOf_spec, Val.vdict.sizeOf_spec] at h1
            omega
          have hbase : mergeVal (dictGet s k) (.vdict da) = .vdict da →
              mergeVal (dictGet s k) (.vdict db) = .vdict db →
              ∃ w, dictGet (merge_dicts (merge_dicts s b) a) k = some w ∧
                pyEqVal v w = true := by
            intro hm1 hm2
            rw [hm1] at hLv
            rw [hm2] at hRv
            rw [show mergeVal (some (Val.vdict da)) (.vdict db)
                = .vdict (merge_dicts da db) from by simp [mergeVal]] at hLv
            rw [show mergeVal (some (Val.vdict db)) (.vdict da)
                = .vdict (merge_dicts db da) from by simp [mergeVal]] at hRv
            have hveq : v = .vdict (merge_dicts da db) :=
              Option.some.inj (hgv.symm.trans hLv)
            refine ⟨.vdict (merge_dicts db da), hRv, ?_⟩
            rw [hveq]
            have hrec := ih da db [] hszda wfDict_nil hda hdb hsub
            rwa [merge_nil_left da (wfDict_nodup da hda),
              merge_nil_left db (wfDict_nodup db hdb)] at hrec
          cases hsk : dictGet s k with
          | none =>
            exact hbase (by rw [hsk]; simp [mergeVal]) (by rw [hsk]; simp [mergeVal])
          | some w0 =>
            cases w0 with
            | vint nn =>
              exact hbase (by rw [hsk]; simp [mergeVal]) (by rw [hsk]; simp [mergeVal])
            | vstr ss =>
              exact hbase (by rw [hsk]; simp [mergeVal]) (by rw [hsk]; simp [mergeVal])
            | vbool bb =>
              exact hbase (by rw [hsk]; simp [mergeVal]) (by rw [hsk]; simp [mergeVal])
            | vlist ll =>
              exact hbase (by rw [hsk]; simp [mergeVal]) (by rw [hsk]; simp [mergeVal])
            | vdict ds =>
              rw [hsk] at hLv hRv
              rw [show mergeVal (some (Val.vdict ds)) (.vdict da)
                  = .vdict (merge_dicts ds da) from by simp [mergeVal]] at hLv
              rw [show mergeVal (some (Val.vdict ds)) (.vdict db)
                  = .vdict (merge_dicts ds db) from by simp [mergeVal]] at hRv
              rw [show mergeVal (some (Val.vdict (merge_dicts ds da))) (.vdict db)
                  = .vdict (merge_dicts (merge_dicts ds da) db) from by
                simp [mergeVal]] at hLv
              rw [show mergeVal (some (Val.vdict (merge_dicts ds db))) (.vdict da)
                  = .vdict (merge_dicts (merge_dicts ds db) da) from by
                simp [mergeVal]] at hRv
              have hveq : v = .vdict (merge_dicts (merge_dicts ds da) db) :=
                Option.some.inj (hgv.symm.trans hLv)
              refine ⟨.vdict (merge_dicts (merge_dicts ds db) da), hRv, ?_⟩
              rw [hveq]
              have hds : wfDict ds = true := by
                have hwf := wfVal_of_get s k _ hs hsk
                rwa [wfVal_vdict] at hwf
              exact ih da db ds hszda hds hda hdb hsub
    have heq : pyEqVal (.vdict (merge_dicts (merge_dicts s a) b))
        (.vdict (merge_dicts (merge_dicts s b) a))
        = (((merge_dicts (merge_dicts s a) b).length
              == (merge_dicts (merge_dicts s b) a).length)
           && pyEqEntries (merge_dicts (merge_dicts s a) b)
               (merge_dicts (merge_dicts s b) a)) := by
      simp [pyEqVal]
    rw [heq, Bool.and_eq_true]
    constructor
    · rw [hlen]
      simp
    · exact pyEqEntries_of_forall _ _ hmain

/-! ## C6 : commutation of the reducer families -/

/-- C6 counterexample: three singleton feedback lists with pairwise
distinct fingerprints — the dedup-append reducer applied in the two
orders yields `[s, a, b]` versus `[s, b, a]`, which are different lists,
so the claimed exchange law fails for the dedup-append family. -/
theorem c6_counterexample :
    itemKey hash0 (fbItem "a" "r" false) ≠ itemKey hash0 (fbItem "b" "r" false) ∧
    validation_feedback_reducer hash0
        (validation_feedback_reducer hash0 [fbItem "s" "r" false]
          [fbItem "a" "r" false]) [fbItem "b" "r" false]
      ≠ validation_feedback_reducer hash0
        (validation_feedback_reducer hash0 [fbItem "s" "r" false]
          [fbItem "b" "r" false]) [fbItem "a" "r" false] := by
  decide

/-- The dedup-append reducer with an empty accumulated list returns the
update unchanged. -/
theorem validation_feedback_reducer_nil_left (md5 : String → String)
    (r : List FeedbackItem) : validation_feedback_reducer md5 [] r = r := by
  rcases eq_or_ne r [] with rfl | hr
  · simp [validation_feedback_reducer]
  · simp [validation_feedback_reducer, hr]

/-- C6 (amended): for updates touching disjoint (sub-)keys — including
updates sharing a top-level key whose nested dicts are key-disjoint —
the deep-merge reducer commutes up to Python dict equality `==` (size
and per-key values agree recursively, only insertion order may differ);
the boolean-OR reducer commutes outright; and the dedup-append reducer
commutes only up to ordering — for any base list, merging two non-empty
disjoint-fingerprint updates in either order retains exactly the same
item for every fingerprint, though not as equal lists. -/
theorem c6_amended_commutation :
    (∀ (s a b : PyDict), wfDict s = true → wfDict a = true → wfDict b = true →
       subDisjoint a b = true →
       pyEqVal (.vdict (merge_dicts (merge_dicts s a) b))
         (.vdict (merge_dicts (merge_dicts s b) a)) = true) ∧
    (∀ s a b : Bool,
       design_flaws_reducer (design_flaws_reducer s a) b
         = design_flaws_reducer (design_flaws_reducer s b) a) ∧
    (∀ (md5 : String → String) (s a b : List FeedbackItem) (k : String),
       a ≠ [] → b ≠ [] →
       (∀ x ∈ a, ∀ y ∈ b, itemKey md5 x ≠ itemKey md5 y) →
       (validation_feedback_reducer md5
           (validation_feedback_reducer md5 s a) b).filter
           (fun it => itemKey md5 it == k)
         = (validation_feedback_reducer md5
             (validation_feedback_reducer md5 s b) a).filter
             (fun it => itemKey md5 it == k)) := by
  refine ⟨?_, by decide, ?_⟩
  · intro s a b hs ha hb hdisj
    exact merge_comm_pyEq (sizeOf a) a b s le_rfl hs ha hb hdisj
  · intro md5 s a b k ha hb hdisj
    have hAB : a.filter (fun it => itemKey md5 it == k) = []
        ∨ b.filter (fun it => itemKey md5 it == k) = [] := by
      by_contra hc
      push_neg at hc
      obtain ⟨x, hx⟩ := List.exists_mem_of_ne_nil _ hc.1
      obtain ⟨y, hy⟩ := List.exists_mem_of_ne_nil _ hc.2
      rw [List.mem_filter] at hx hy
      exact hdisj x hx.1 y hy.1 (by rw [eq_of_beq hx.2, eq_of_beq hy.2])
    by_cases hs : s = []
    · subst hs
      rw [validation_feedback_reducer_nil_left md5 a,
        validation_feedback_reducer_nil_left md5 b,
        validation_feedback_reducer_filter md5 a b k ha hb,
        validation_feedback_reducer_filter md5 b a k hb ha,
        List.filter_append, List.filter_append]
      rcases hAB with hA | hB
      · rw [hA]
        simp
      · rw [hB]
        simp
    · have hsa : validation_feedback_reducer md5 s a ≠ [] :=
        validation_feedback_reducer_ne_nil md5 s a hs ha
      have hsb : validation_feedback_reducer md5 s b ≠ [] :=
        validation_feedback_reducer_ne_nil md5 s b hs hb
      rw [validation_feedback_reducer_filter md5 _ b k hsa hb,
        validation_feedback_reducer_filter md5 _ a k hsb ha,
        List.filter_append, List.filter_append,
        validation_feedback_reducer_filter md5 s a k hs ha,
        validation_feedback_reducer_filter md5 s b k hs hb,
        List.filter_append, List.filter_append]
      rcases hAB with hA | hB
      · rw [hA]
        simp only [List.append_nil]
        rw [getLast?_toList_append, toList_getLast?]
      · rw [hB]
        simp only [List.append_nil]
        rw [toList_getLast?, getLast?_toList_append]

/-- C6 witness: the amended law applied at concrete updates of each
family — for deep merge a pair sharing the top-level key `"x"` with
disjoint nested keys, and for dedup-append an empty base list. -/
theorem c6_witness :
    pyEqVal
        (.vdict (merge_dicts (merge_dicts [("y", .vint 0)]
          [("x", .vdict [("p", .vint 1)])]) [("x", .vdict [("q", .vint 2)])]))
        (.vdict (merge_dicts (merge_dicts [("y", .vint 0)]
          [("x", .vdict [("q", .vint 2)])]) [("x", .vdict [("p", .vint 1)])]))
      = true ∧
    design_flaws_reducer (design_flaws_reducer false true) false
      = design_flaws_reducer (design_flaws_reducer false false) true ∧
    (validation_feedback_reducer hash0
        (validation_feedback_reducer hash0 [] [fbItem "a" "r" false])
        [fbItem "b" "r" false]).filter (fun it => itemKey hash0 it == "a_h")
      = (validation_feedback_reducer hash0
          (validation_feedback_reducer hash0 [] [fbItem "b" "r" false])
          [fbItem "a" "r" false]).filter (fun it => itemKey hash0 it == "a_h") := by
  refine ⟨?_, ?_, ?_⟩
  · refine c6_amended_commutation.1 [("y", .vint 0)]
      [("x", .vdict [("p", .vint 1)])] [("x", .vdict [("q", .vint 2)])]
      ?_ ?_ ?_ ?_
    · simp [wfDict, wfEntries, wfVal]
    · simp [wfDict, wfEntries, wfVal]
    · simp [wfDict, wfEntries, wfVal]
    · simp [subDisjoint, dictGet]
  · exact c6_amended_commutation.2.1 false true false
  · exact c6_amended_commutation.2.2 hash0 [] [fbItem "a" "r" false]
      [fbItem "b" "r" false] "a_h" (by simp) (by simp) (by decide)

/-- C10 witness: two validators land in order True then False; the
merged flag is False. -/
theorem c10_witness :
    (([fbItem "a" "r" true, fbItem "b" "r" false].map validatorUpdate).foldl
        (applyUpdate hash0) (mkCtrlState 0 1 3 false)).factual_errors_exist
      = some false := by
  have h := c10_factual_errors_last_write_wins.1 hash0 (mkCtrlState 0 1 3 false)
      [fbItem "a" "r" true, fbItem "b" "r" false] (by decide)
  simpa [fbItem] using h

end ArchBuddy
